import Mathlib

/-!
Verification of the `bdgr` single-header image codec (`loco.c`, `bdgr` section)
and of the exploratory LOCO predictor helpers from the same repository.

The shallow embedding below translates the C source:
* machine words (`uint64_t`) become `Nat` values kept `< 2 ^ 64` by the
  operations themselves (shifting right, OR-ing a top bit);
* the `int count` of the bit reader is an `Int`, since the source lets it go
  negative in `bdgr_header`;
* byte buffers become `List Nat` of values `< 256`;
* the output pointer walk becomes an accumulating list of emitted 64-bit words.
-/

set_option maxRecDepth 100000

namespace Bdgr

/-- The `n` low bits of `v`, least-significant first (the order in which the
C bit pump consumes them). -/
def bitsLE : Nat → Nat → List Bool
  | 0, _ => []
  | n + 1, v => (decide (v % 2 = 1)) :: bitsLE n (v / 2)

/-- Value of a bit list, first element least significant. -/
def valLE : List Bool → Nat
  | [] => 0
  | b :: bs => (if b then 1 else 0) + 2 * valLE bs

/-- Bit content of a list of 64-bit words, in stream order. -/
def wordsToBits : List Nat → List Bool
  | [] => []
  | w :: ws => bitsLE 64 w ++ wordsToBits ws

@[simp] theorem bitsLE_zero (v : Nat) : bitsLE 0 v = [] := rfl

@[simp] theorem bitsLE_succ (n v : Nat) :
    bitsLE (n + 1) v = (decide (v % 2 = 1)) :: bitsLE n (v / 2) := rfl

@[simp] theorem bitsLE_length (n v : Nat) : (bitsLE n v).length = n := by
  induction n generalizing v with
  | zero => rfl
  | succ n ih => simp [bitsLE, ih]

theorem bitsLE_mod (n v : Nat) : bitsLE n (v % 2 ^ n) = bitsLE n v := by
  induction n generalizing v with
  | zero => rfl
  | succ n ih =>
    have h2 : (2 : Nat) ∣ 2 ^ (n + 1) := dvd_pow_self 2 (Nat.succ_ne_zero n)
    have hmod : v % 2 ^ (n + 1) % 2 = v % 2 := Nat.mod_mod_of_dvd v h2
    have hdiv : v % 2 ^ (n + 1) / 2 = v / 2 % 2 ^ n := by
      have := Nat.mod_mul_right_div_self v 2 (2 ^ n)
      simpa [pow_succ, Nat.mul_comm] using this
    simp [bitsLE, hmod, hdiv, ih]

theorem bitsLE_split (m n v : Nat) :
    bitsLE (m + n) v = bitsLE m v ++ bitsLE n (v / 2 ^ m) := by
  induction m generalizing v with
  | zero => simp [bitsLE]
  | succ m ih =>
    have : m + 1 + n = (m + n) + 1 := by omega
    rw [this]
    simp only [bitsLE_succ, ih (v / 2)]
    have : v / 2 / 2 ^ m = v / 2 ^ (m + 1) := by
      rw [Nat.div_div_eq_div_mul, pow_succ, Nat.mul_comm]
    rw [this]
    rfl

theorem bitsLE_zero_val (n : Nat) : bitsLE n 0 = List.replicate n false := by
  induction n with
  | zero => rfl
  | succ n ih => simp [bitsLE, ih, List.replicate_succ]

theorem bitsLE_of_lt {n m v : Nat} (hnm : n ≤ m) (hv : v < 2 ^ n) :
    bitsLE m v = bitsLE n v ++ List.replicate (m - n) false := by
  have h := bitsLE_split n (m - n) v
  rw [Nat.add_sub_cancel' hnm] at h
  rw [h, Nat.div_eq_of_lt hv, bitsLE_zero_val]

theorem valLE_append (A B : List Bool) :
    valLE (A ++ B) = valLE A + 2 ^ A.length * valLE B := by
  induction A with
  | nil => simp [valLE]
  | cons a A ih => simp [valLE, ih, pow_succ]; ring

theorem valLE_bitsLE (n v : Nat) : valLE (bitsLE n v) = v % 2 ^ n := by
  induction n generalizing v with
  | zero => simp [valLE, bitsLE, Nat.mod_one]
  | succ n ih =>
    simp only [bitsLE_succ, valLE, ih]
    have hm : v % 2 ^ (n + 1) = v % 2 + 2 * (v / 2 % 2 ^ n) := by
      rw [pow_succ']; exact Nat.mod_mul
    rw [hm]
    rcases Nat.mod_two_eq_zero_or_one v with hv | hv <;> simp [hv]

theorem valLE_lt (B : List Bool) : valLE B < 2 ^ B.length := by
  induction B with
  | nil => simp [valLE]
  | cons b B ih =>
    simp only [valLE, List.length_cons, pow_succ]
    cases b <;> simp <;> omega

theorem bitsLE_valLE (B : List Bool) : bitsLE B.length (valLE B) = B := by
  induction B with
  | nil => rfl
  | cons b B ih =>
    have hmod : ((if b then 1 else 0) + 2 * valLE B) % 2 = if b then 1 else 0 := by
      cases b <;> simp <;> omega
    have hdiv : ((if b then 1 else 0) + 2 * valLE B) / 2 = valLE B := by
      cases b <;> simp <;> omega
    simp only [List.length_cons, bitsLE_succ, valLE, hmod, hdiv, ih]
    cases b <;> simp

theorem valLE_bitsLE_of_lt {n v : Nat} (h : v < 2 ^ n) : valLE (bitsLE n v) = v := by
  rw [valLE_bitsLE, Nat.mod_eq_of_lt h]

theorem valLE_replicate_false (n : Nat) : valLE (List.replicate n false) = 0 := by
  rw [← bitsLE_zero_val, valLE_bitsLE, Nat.zero_mod]

theorem bitsLE_snoc {n x : Nat} (b : Bool) (hx : x < 2 ^ n) :
    bitsLE (n + 1) (x + (if b then 2 ^ n else 0)) = bitsLE n x ++ [b] := by
  rw [bitsLE_split n 1]
  have hmod : bitsLE n (x + (if b then 2 ^ n else 0)) = bitsLE n x := by
    cases b
    · simp
    · rw [if_pos rfl, ← bitsLE_mod n (x + 2 ^ n), Nat.add_mod_right,
        Nat.mod_eq_of_lt hx]
  have hdiv : (x + (if b then 2 ^ n else 0)) / 2 ^ n = if b then 1 else 0 := by
    cases b
    · simp [Nat.div_eq_of_lt hx]
    · simp [Nat.div_eq_of_lt hx, Nat.add_div_right x (Nat.two_pow_pos n)]
  rw [hmod, hdiv]
  congr 1
  cases b <;> simp [bitsLE]

theorem bitsLE_take {k n : Nat} (v : Nat) (h : k ≤ n) :
    (bitsLE n v).take k = bitsLE k v := by
  have := bitsLE_split k (n - k) v
  rw [Nat.add_sub_cancel' h] at this
  rw [this, List.take_append_of_le_length (by simp)]
  simp [List.take_of_length_le]

theorem bitsLE_drop {k n : Nat} (v : Nat) (h : k ≤ n) :
    (bitsLE n v).drop k = bitsLE (n - k) (v / 2 ^ k) := by
  have := bitsLE_split k (n - k) v
  rw [Nat.add_sub_cancel' h] at this
  rw [this, List.drop_append_of_le_length (by simp)]
  simp [List.drop_of_length_le]

theorem wordsToBits_append (xs ys : List Nat) :
    wordsToBits (xs ++ ys) = wordsToBits xs ++ wordsToBits ys := by
  induction xs with
  | nil => rfl
  | cons x xs ih => simp [wordsToBits, ih]

theorem wordsToBits_length (xs : List Nat) :
    (wordsToBits xs).length = 64 * xs.length := by
  induction xs with
  | nil => rfl
  | cons x xs ih => simp [wordsToBits, ih]; ring

/-! ## The bit writer of `bdgr_encode`

C source (macros expanded in place in `bdgr_encode`):
```
#define push_out(p, e, b64, count) do {
    count++;
    if (count == 64) { *p++ = b64; count = 0; swear(p <= e); } } done
#define push_bit_0(b64) b64 >>= 1
#define push_bit_1(b64) b64 = (1ULL << 63) | (b64 >> 1)
#define push_bits(p, e, b64, count, val, bits) do {
    int v = val;
    for (int i = 0; i < bits; i++) {
        if (v & 1) { push_bit_1(b64); } else { push_bit_0(b64); }
        push_out(p, e, b64, count);
        v >>= 1; } } done
```
The emitted words (`*p++ = b64`) are accumulated in `words`. -/

structure BWState where
  words : List Nat
  b64   : Nat
  count : Nat

def push_bit_0 (s : BWState) : BWState :=
  { s with b64 := s.b64 >>> 1 }

def push_bit_1 (s : BWState) : BWState :=
  { s with b64 := (1 <<< 63) ||| (s.b64 >>> 1) }

def push_out (s : BWState) : BWState :=
  let c := s.count + 1
  if c = 64 then { words := s.words ++ [s.b64], b64 := s.b64, count := 0 }
  else { s with count := c }

/-- One `push_bit_…; push_out` pair of `push_bits` / the unary loops. -/
def pushB (s : BWState) (b : Bool) : BWState :=
  push_out (if b then push_bit_1 s else push_bit_0 s)

/-- The C `push_bits(p, e, b64, count, val, bits)` macro. -/
def push_bitsW (s : BWState) (val : Nat) : Nat → BWState
  | 0 => s
  | bits + 1 => push_bitsW (pushB s (decide (val &&& 1 = 1))) (val >>> 1) bits

/-- `while (q > 0) { push_bit_0(b64); push_out(p, end, b64, count); q--; }` -/
def pushZeros (s : BWState) : Nat → BWState
  | 0 => s
  | q + 1 => pushZeros (pushB s false) q

/-- `if (count > 0) { b64 >>= (64 - count); *p++ = b64; }` — the final flush of
`bdgr_encode`; returns the complete list of emitted 64-bit words. -/
def flushWords (s : BWState) : List Nat :=
  if 0 < s.count then s.words ++ [s.b64 >>> (64 - s.count)] else s.words

/-- Pushing a whole list of bits, one `pushB` at a time. -/
def pushBitList (s : BWState) : List Bool → BWState
  | [] => s
  | b :: bs => pushBitList (pushB s b) bs

/-- Total number of bits pushed into the writer so far. -/
def bitLength (s : BWState) : Nat := 64 * s.words.length + s.count

theorem pushBitList_append (s : BWState) (A B : List Bool) :
    pushBitList s (A ++ B) = pushBitList (pushBitList s A) B := by
  induction A generalizing s with
  | nil => rfl
  | cons a A ih => simp [pushBitList, ih]

/-- Writer invariant: after pushing the bit list `L` from the initial state,
the emitted words followed by the pending high bits of `b64` spell `L`. -/
def WInv (s : BWState) (L : List Bool) : Prop :=
  s.count < 64 ∧ s.b64 < 2 ^ 64 ∧ (∀ w ∈ s.words, w < 2 ^ 64) ∧
  64 * s.words.length + s.count = L.length ∧
  wordsToBits s.words ++ bitsLE s.count (s.b64 >>> (64 - s.count)) = L

theorem WInv_init : WInv ⟨[], 0, 0⟩ [] := by
  refine ⟨by decide, by decide, by simp, by decide, by decide⟩

theorem shiftRight_lt_two_pow {x n k : Nat} (hx : x < 2 ^ n) (hk : k ≤ n) :
    x >>> k < 2 ^ (n - k) := by
  rw [Nat.shiftRight_eq_div_pow]
  apply Nat.div_lt_of_lt_mul
  calc x < 2 ^ n := hx
    _ = 2 ^ k * 2 ^ (n - k) := by rw [← pow_add]; congr 1; omega

theorem bitsLE_snoc_false {n x : Nat} (hx : x < 2 ^ n) :
    bitsLE (n + 1) x = bitsLE n x ++ [false] := by
  have h := bitsLE_snoc false hx
  simpa using h

theorem bitsLE_snoc_true {n x : Nat} (hx : x < 2 ^ n) :
    bitsLE (n + 1) (x + 2 ^ n) = bitsLE n x ++ [true] := by
  have h := bitsLE_snoc true hx
  simpa using h

/-- Shifting the 64-bit register right and injecting a bit at position 63
appends that bit to the pending (high) bits of the register. -/
theorem bitsLE_pending_step {x c : Nat} (hc : c < 64) (hx : x < 2 ^ 64) (b : Bool) :
    bitsLE (c + 1) ((x >>> 1 + (if b then 2 ^ 63 else 0)) >>> (64 - (c + 1)))
      = bitsLE c (x >>> (64 - c)) ++ [b] := by
  have hdvd : (2 ^ 63 : Nat) = 2 ^ (63 - c) * 2 ^ c := by
    rw [← pow_add]; congr 1; omega
  have e1 : (2 : Nat) ^ 1 * 2 ^ (63 - c) = 2 ^ (64 - c) := by
    rw [← pow_add]; congr 1; omega
  have h63 : 64 - (c + 1) = 63 - c := by omega
  have hpend : x / 2 ^ (64 - c) < 2 ^ c := by
    have h1 := shiftRight_lt_two_pow hx (show 64 - c ≤ 64 by omega)
    have h2 : 64 - (64 - c) = c := by omega
    rw [h2, Nat.shiftRight_eq_div_pow] at h1
    exact h1
  rw [h63]
  simp only [Nat.shiftRight_eq_div_pow]
  cases b
  · show bitsLE (c + 1) (x / 2 ^ 1 / 2 ^ (63 - c)) = _
    rw [Nat.div_div_eq_div_mul, e1]
    exact bitsLE_snoc_false hpend
  · show bitsLE (c + 1) ((x / 2 ^ 1 + 2 ^ 63) / 2 ^ (63 - c))
      = bitsLE c (x / 2 ^ (64 - c)) ++ [true]
    rw [hdvd, Nat.add_mul_div_left _ _ (Nat.two_pow_pos (63 - c)),
      Nat.div_div_eq_div_mul, e1]
    exact bitsLE_snoc_true hpend

theorem pushB_eq {s : BWState} (b : Bool) (hb : s.b64 < 2 ^ 64) :
    pushB s b = push_out ⟨s.words, s.b64 >>> 1 + (if b then 2 ^ 63 else 0), s.count⟩ := by
  have hb2 : s.b64 >>> 1 < 2 ^ 63 := shiftRight_lt_two_pow hb (by omega)
  have hor : (1 <<< 63 : Nat) ||| (s.b64 >>> 1) = s.b64 >>> 1 + 2 ^ 63 := by
    have h := Nat.mul_add_lt_is_or hb2 1
    rw [mul_one] at h
    rw [Nat.shiftLeft_eq, one_mul, ← h]
    omega
  cases b
  · show push_out (push_bit_0 s) = _
    rw [push_bit_0]
    norm_num
  · show push_out (push_bit_1 s) = _
    rw [push_bit_1]
    norm_num [hor]

theorem pushB_WInv {s : BWState} {L : List Bool} (h : WInv s L) (b : Bool) :
    WInv (pushB s b) (L ++ [b]) := by
  obtain ⟨hc, hb, hws, hlen, hbits⟩ := h
  have hnewlt : s.b64 >>> 1 + (if b then 2 ^ 63 else 0) < 2 ^ 64 := by
    have hb2 : s.b64 >>> 1 < 2 ^ 63 := shiftRight_lt_two_pow hb (by omega)
    cases b <;> simp <;> omega
  have hkey := bitsLE_pending_step hc hb b
  rw [pushB_eq b hb]
  simp only [push_out]
  by_cases hfull : s.count + 1 = 64
  · -- a full word is emitted
    rw [if_pos hfull]
    refine ⟨show (0 : Nat) < 64 by omega, hnewlt, ?_, ?_, ?_⟩
    · intro w hw
      rcases List.mem_append.mp hw with hw | hw
      · exact hws w hw
      · rcases List.mem_singleton.mp hw with rfl
        exact hnewlt
    · show 64 * (s.words ++ [_]).length + 0 = (L ++ [b]).length
      simp only [List.length_append, List.length_cons, List.length_nil]
      omega
    · show wordsToBits (s.words ++ [_]) ++ bitsLE 0 (_ >>> (64 - 0)) = L ++ [b]
      rw [hfull] at hkey
      rw [Nat.sub_self, Nat.shiftRight_zero] at hkey
      rw [wordsToBits_append, bitsLE_zero, List.append_nil, wordsToBits,
        wordsToBits, List.append_nil, hkey, ← List.append_assoc, hbits]
  · rw [if_neg hfull]
    refine ⟨show s.count + 1 < 64 by omega, hnewlt, hws, ?_, ?_⟩
    · show 64 * s.words.length + (s.count + 1) = (L ++ [b]).length
      simp only [List.length_append, List.length_cons, List.length_nil]
      omega
    · show wordsToBits s.words ++ bitsLE (s.count + 1) _ = L ++ [b]
      rw [hkey, ← List.append_assoc, hbits]

theorem pushBitList_WInv {s : BWState} {L : List Bool} (h : WInv s L) (B : List Bool) :
    WInv (pushBitList s B) (L ++ B) := by
  induction B generalizing s L with
  | nil => simpa using h
  | cons b B ih =>
    have := ih (pushB_WInv h b)
    simpa using this

theorem bitLength_push_out (t : BWState) :
    bitLength (push_out t) = bitLength t + 1 := by
  simp only [push_out]
  by_cases hfull : t.count + 1 = 64
  · rw [if_pos hfull]
    show 64 * (t.words ++ [t.b64]).length + 0 = 64 * t.words.length + t.count + 1
    simp only [List.length_append, List.length_cons, List.length_nil]
    omega
  · rw [if_neg hfull]
    show 64 * t.words.length + (t.count + 1) = 64 * t.words.length + t.count + 1
    omega

theorem bitLength_pushB (s : BWState) (b : Bool) :
    bitLength (pushB s b) = bitLength s + 1 := by
  have hb : bitLength (if b then push_bit_1 s else push_bit_0 s) = bitLength s := by
    cases b <;> rfl
  calc bitLength (pushB s b)
      = bitLength (if b then push_bit_1 s else push_bit_0 s) + 1 :=
        bitLength_push_out _
    _ = bitLength s + 1 := by rw [hb]

theorem bitLength_pushBitList (s : BWState) (B : List Bool) :
    bitLength (pushBitList s B) = bitLength s + B.length := by
  induction B generalizing s with
  | nil => rfl
  | cons b B ih =>
    simp only [pushBitList, ih, bitLength_pushB, List.length_cons]
    omega

/-- Flushing a writer that has pushed `L` yields words whose bit content is
`L` padded with zero bits to the next multiple of 64. -/
theorem flushWords_spec {s : BWState} {L : List Bool} (h : WInv s L) :
    wordsToBits (flushWords s) = L ++ List.replicate ((64 - s.count) % 64) false
      ∧ (flushWords s).length = (L.length + 63) / 64
      ∧ ∀ w ∈ flushWords s, w < 2 ^ 64 := by
  obtain ⟨hc, hb, hws, hlen, hbits⟩ := h
  by_cases hpos : 0 < s.count
  · have hmod : (64 - s.count) % 64 = 64 - s.count := by omega
    have hpend : s.b64 >>> (64 - s.count) < 2 ^ s.count := by
      have h1 := shiftRight_lt_two_pow hb (show 64 - s.count ≤ 64 by omega)
      have h2 : 64 - (64 - s.count) = s.count := by omega
      rwa [h2] at h1
    have hflush : flushWords s = s.words ++ [s.b64 >>> (64 - s.count)] := by
      rw [flushWords, if_pos hpos]
    refine ⟨?_, ?_, ?_⟩
    · rw [hflush, hmod, wordsToBits_append, wordsToBits, wordsToBits, List.append_nil,
        bitsLE_of_lt (show s.count ≤ 64 by omega) hpend, ← List.append_assoc, hbits]
    · rw [hflush]
      simp only [List.length_append, List.length_cons, List.length_nil]
      omega
    · intro w hw
      rw [hflush] at hw
      rcases List.mem_append.mp hw with hw | hw
      · exact hws w hw
      · rcases List.mem_singleton.mp hw with rfl
        calc s.b64 >>> (64 - s.count) < 2 ^ s.count := hpend
          _ ≤ 2 ^ 64 := Nat.pow_le_pow_right (by omega) (by omega)
  · have hzero : s.count = 0 := by omega
    have hflush : flushWords s = s.words := by
      rw [flushWords, if_neg hpos]
    rw [hzero] at hbits hlen
    rw [bitsLE_zero, List.append_nil] at hbits
    refine ⟨?_, ?_, fun w hw => hws w (hflush ▸ hw)⟩
    · rw [hflush, hbits, hzero]
      simp
    · rw [hflush]
      omega

/-! ## The `bdgr` codec: constants, adaptation table, residual fold

C source:
```
enum { // must be the same in encode and decode
    bdgr_cut_off = 11,
    bdgr_start_with_bits = 7
};
static const int bdgr_k4rice[256] = { ... };
```
-/

def bdgr_cut_off : Nat := 11

def bdgr_start_with_bits : Nat := 7

/-- The 256-entry parameter-update table, transcribed verbatim from the
source. -/
def bdgr_k4rice : List Nat :=
  [0, 0, 1, 1, 1, 2, 2, 2, 2, 3, 3, 3, 3, 3, 3, 3, 3, 4, 4, 4, 4, 4, 4, 4, 4, 4, 4, 4, 4, 4, 4, 4,
   4, 5, 5, 5, 5, 5, 5, 5, 5, 5, 5, 5, 5, 5, 5, 5, 5, 5, 5, 5, 5, 5, 5, 5, 5, 5, 5, 5, 5, 5, 5, 5,
   5, 6, 6, 6, 6, 6, 6, 6, 6, 6, 6, 6, 6, 6, 6, 6, 6, 6, 6, 6, 6, 6, 6, 6, 6, 6, 6, 6, 6, 6, 6, 6,
   6, 6, 6, 6, 6, 6, 6, 6, 6, 6, 6, 6, 6, 6, 6, 6, 6, 6, 6, 6, 6, 6, 6, 6, 6, 6, 6, 6, 6, 6, 6, 6,
   6, 7, 7, 7, 7, 7, 7, 7, 7, 7, 7, 7, 7, 7, 7, 7, 7, 7, 7, 7, 7, 7, 7, 7, 7, 7, 7, 7, 7, 7, 7, 7,
   7, 7, 7, 7, 7, 7, 7, 7, 7, 7, 7, 7, 7, 7, 7, 7, 7, 7, 7, 7, 7, 7, 7, 7, 7, 7, 7, 7, 7, 7, 7, 7,
   7, 7, 7, 7, 7, 7, 7, 7, 7, 7, 7, 7, 7, 7, 7, 7, 7, 7, 7, 7, 7, 7, 7, 7, 7, 7, 7, 7, 7, 7, 7, 7,
   7, 7, 7, 7, 7, 7, 7, 7, 7, 7, 7, 7, 7, 7, 7, 7, 7, 7, 7, 7, 7, 7, 7, 7, 7, 7, 7, 7, 7, 7, 7, 7]

/-- The residual fold of `bdgr_encode`:
```
int delta = px - prediction;
delta = delta < 0 ? delta + 256 : delta;
delta = delta >= 128 ? delta - 256 : delta;
int rice = delta >= 0 ? delta * 2 : -delta * 2 - 1;
```
`px` and `prediction` are bytes. -/
def foldRice (px prediction : Nat) : Nat :=
  let delta0 : Int := (px : Int) - (prediction : Int)
  let delta1 : Int := if delta0 < 0 then delta0 + 256 else delta0
  let delta2 : Int := if 128 ≤ delta1 then delta1 - 256 else delta1
  (if 0 ≤ delta2 then delta2 * 2 else -delta2 * 2 - 1).toNat

/-- The per-symbol emission of `bdgr_encode`:
```
const int m = 1 << bits;
int q = rice >> bits;
if (q < bdgr_cut_off) {
    while (q > 0) { push_bit_0(b64); push_out(p, end, b64, count); q--; }
    push_bit_1(b64); push_out(p, end, b64, count);
    const int r = rice & (m - 1);
    push_bits(p, end, b64, count, r, bits);
} else {
    q = bdgr_cut_off;
    while (q > 0) { push_bit_0(b64); push_out(p, end, b64, count); q--; }
    push_bit_1(b64); push_out(p, end, b64, count);
    push_bits(p, end, b64, count, rice, 8);
}
```
-/
def encodeSymbol (st : BWState) (bits rice : Nat) : BWState :=
  let m := 1 <<< bits
  let q := rice >>> bits
  if q < bdgr_cut_off then
    push_bitsW (pushB (pushZeros st q) true) (rice &&& (m - 1)) bits
  else
    push_bitsW (pushB (pushZeros st bdgr_cut_off) true) rice 8

/-- Result of the encoder pixel loop: writer state, current Rice parameter
`bits`, current `prediction`, and the frame memory after the loop (the loop
only reads the frame). -/
structure EncLoopRes where
  st : BWState
  bits : Nat
  prediction : Nat
  frame : List Nat

/-- The pixel loop of `bdgr_encode` (`while (s < e) { byte px = *s++; ... }`);
`i` is the offset of `s` into the frame and `n` the number of remaining
pixels `e - s`. -/
def encodeLoop (frame : List Nat) : Nat → Nat → BWState → Nat → Nat → EncLoopRes
  | _, 0, st, bits, pred => ⟨st, bits, pred, frame⟩
  | i, n + 1, st, bits, pred =>
    let px := frame.getD i 0
    let rice := foldRice px pred
    encodeLoop frame (i + 1) n (encodeSymbol st bits rice) (bdgr_k4rice.getD rice 0) px

structure EncResult where
  words : List Nat
  bytes : Nat
  frame : List Nat

/-- `bdgr_encode(data, w, h, output, max_bytes)`: pushes the 16-bit header
fields, runs the pixel loop, flushes, and returns the byte count
`(byte*)p - (byte*)output` (8 bytes per emitted word). -/
def bdgr_encode (data : List Nat) (w h : Nat) : EncResult :=
  let st1 := push_bitsW ⟨[], 0, 0⟩ w 16
  let st2 := push_bitsW st1 h 16
  let r := encodeLoop data 0 (w * h) st2 bdgr_start_with_bits 0
  let words := flushWords r.st
  ⟨words, 8 * words.length, r.frame⟩

/-! ## Abstract bit content of the encoded stream -/

/-- The bits emitted for one symbol `rice` under Rice parameter `bits`. -/
def riceBits (bits rice : Nat) : List Bool :=
  let q := rice >>> bits
  if q < bdgr_cut_off then
    List.replicate q false ++ true :: bitsLE bits rice
  else
    List.replicate bdgr_cut_off false ++ true :: bitsLE 8 rice

/-- The bits emitted for `n` pixels starting at offset `i`. -/
def symbolsBits (frame : List Nat) : Nat → Nat → Nat → Nat → List Bool
  | 0, _, _, _ => []
  | n + 1, i, bits, pred =>
    let px := frame.getD i 0
    let rice := foldRice px pred
    riceBits bits rice ++ symbolsBits frame n (i + 1) (bdgr_k4rice.getD rice 0) px

/-- Full bit content of an encoded frame: header then symbols. -/
def encodedBits (data : List Nat) (w h : Nat) : List Bool :=
  bitsLE 16 w ++ bitsLE 16 h ++ symbolsBits data (w * h) 0 bdgr_start_with_bits 0

theorem push_bitsW_eq (st : BWState) (v n : Nat) :
    push_bitsW st v n = pushBitList st (bitsLE n v) := by
  induction n generalizing st v with
  | zero => rfl
  | succ n ih =>
    show push_bitsW (pushB st _) (v >>> 1) n = _
    rw [ih]
    have h1 : (decide (v &&& 1 = 1)) = decide (v % 2 = 1) := by
      rw [Nat.and_one_is_mod]
    have h2 : v >>> 1 = v / 2 := by
      rw [Nat.shiftRight_eq_div_pow, pow_one]
    rw [h1, h2]
    rfl

theorem pushZeros_eq (st : BWState) (q : Nat) :
    pushZeros st q = pushBitList st (List.replicate q false) := by
  induction q generalizing st with
  | zero => rfl
  | succ q ih =>
    show pushZeros (pushB st false) q = _
    rw [ih, List.replicate_succ]
    rfl

theorem pushBitList_cons_middle (st : BWState) (A : List Bool) (b : Bool)
    (B : List Bool) :
    pushBitList (pushB (pushBitList st A) b) B = pushBitList st (A ++ b :: B) := by
  rw [pushBitList_append]
  rfl

theorem encodeSymbol_eq (st : BWState) (bits rice : Nat) :
    encodeSymbol st bits rice = pushBitList st (riceBits bits rice) := by
  rw [encodeSymbol, riceBits]
  have hm : (1 <<< bits) - 1 = 2 ^ bits - 1 := by
    rw [Nat.shiftLeft_eq, one_mul]
  by_cases hq : rice >>> bits < bdgr_cut_off
  · rw [if_pos hq, if_pos hq, hm, push_bitsW_eq, Nat.and_pow_two_sub_one_eq_mod,
      bitsLE_mod, pushZeros_eq, pushBitList_cons_middle]
  · rw [if_neg hq, if_neg hq, push_bitsW_eq, pushZeros_eq, pushBitList_cons_middle]

theorem encodeLoop_frame (frame : List Nat) (i n : Nat) (st : BWState)
    (bits pred : Nat) : (encodeLoop frame i n st bits pred).frame = frame := by
  induction n generalizing i st bits pred with
  | zero => rfl
  | succ n ih => exact ih _ _ _ _

theorem encodeLoop_st (frame : List Nat) (i n : Nat) (st : BWState)
    (bits pred : Nat) :
    (encodeLoop frame i n st bits pred).st
      = pushBitList st (symbolsBits frame n i bits pred) := by
  induction n generalizing i st bits pred with
  | zero => rfl
  | succ n ih =>
    show (encodeLoop frame (i + 1) n _ _ _).st = _
    rw [ih, encodeSymbol_eq, symbolsBits, pushBitList_append]

theorem bdgr_k4rice_length : bdgr_k4rice.length = 256 := by decide

theorem bdgr_k4rice_lt_256 : ∀ r < 256, bdgr_k4rice.getD r 0 ≤ 7 := by decide

theorem bdgr_k4rice_le (r : Nat) : bdgr_k4rice.getD r 0 ≤ 7 := by
  by_cases hr : r < 256
  · exact bdgr_k4rice_lt_256 r hr
  · have hd : bdgr_k4rice.getD r 0 = 0 :=
      List.getD_eq_default _ _ (by rw [bdgr_k4rice_length]; omega)
    omega

theorem encodeLoop_bits_le (frame : List Nat) (i n : Nat) (st : BWState)
    (bits pred : Nat) (h : bits ≤ 7) :
    (encodeLoop frame i n st bits pred).bits ≤ 7 := by
  induction n generalizing i st bits pred with
  | zero => exact h
  | succ n ih => exact ih _ _ _ _ (bdgr_k4rice_le _)

/-! ## The bit reader of `bdgr_decode` and `bdgr_header`

C source:
```
#define pull_in(p, b64, count) do {
    if (count == 0) { b64 = *p++; count = 64; } } done
#define pull_bits(v, p, b64, count, bits) do {
    if (count >= bits) {
        v = (uint32_t)b64 & ((1U << bits) - 1);
        b64 >>= bits;
        count -= bits;
    } else {
        v = 0;
        int mask = 1;
        for (int i = 0; i < bits; i++) {
            implore(count > 0);
            if ((int)b64 & 1) { v |= mask; }
            mask <<= 1;
            b64 >>= 1;
            count--;
            pull_in(p, b64, count);
        }
    } } done
```
`count` is a C `int` and really does go negative in `bdgr_header`, so it is
modelled as `Int`. The input pointer `p` is the list of not-yet-pulled
words. -/

structure BRState where
  words : List Nat
  b64 : Nat
  count : Int

def pull_in (s : BRState) : BRState :=
  if s.count = 0 then ⟨s.words.tail, s.words.headD 0, 64⟩ else s

/-- The bit-by-bit loop of the `pull_bits` macro (the `count < bits` branch);
the loop bound `i < bits` is the first argument. -/
def pullBitsSlow : Nat → BRState → Nat → Nat → Nat × BRState
  | 0, s, v, _ => (v, s)
  | n + 1, s, v, mask =>
    let v' := if s.b64 &&& 1 = 1 then v ||| mask else v
    let s' := pull_in ⟨s.words, s.b64 >>> 1, s.count - 1⟩
    pullBitsSlow n s' v' (mask <<< 1)

def pull_bits (s : BRState) (bits : Nat) : Nat × BRState :=
  if (bits : Int) ≤ s.count then
    (s.b64 % 2 ^ 32 &&& (1 <<< bits - 1), ⟨s.words, s.b64 >>> bits, s.count - bits⟩)
  else
    pullBitsSlow bits s 0 1

/-- `__builtin_ctz` on the low 32 bits (`ctz((uint32_t)b64)`); returns 32 on
the (undefined in C) zero input. -/
def ctzAux : Nat → Nat → Nat
  | 0, _ => 0
  | f + 1, x => if x % 2 = 1 then 0 else 1 + ctzAux f (x / 2)

def ctz32 (x : Nat) : Nat := ctzAux 32 (x % 2 ^ 32)

/-- The bit-by-bit unary reader of `bdgr_decode` (`for (;;) { ... }`); fuel
bounds the number of iterations, one bit each. -/
def unarySlow : Nat → BRState → Nat → Nat × BRState
  | 0, s, q => (q, s)
  | f + 1, s, q =>
    let bit := s.b64 &&& 1
    let s' := pull_in ⟨s.words, s.b64 >>> 1, s.count - 1⟩
    if bit = 1 then (q, s') else unarySlow f s' (q + 1)

/-- One symbol of `bdgr_decode`:
```
int q = 0;
pull_in(p, b64, count);
if (count > bdgr_cut_off) {
    q = ctz((uint32_t)b64);
    b64  >>= (q + 1);
    count -= (q + 1);
    pull_in(p, b64, count);
} else {
    for (;;) { int bit = (int)b64 & 1; b64 >>= 1; count--; pull_in(p, b64, count);
               if (bit == 1) { break; } q++; }
}
int rice;
if (q < bdgr_cut_off) { int r; pull_bits(r, p, b64, count, bits); rice = (q << bits) | r; }
else { pull_bits(rice, p, b64, count, 8); }
```
-/
def decodeSymbol (s0 : BRState) (bits : Nat) : Nat × BRState :=
  let s := pull_in s0
  let qs :=
    if (bdgr_cut_off : Int) < s.count then
      let q := ctz32 s.b64
      (q, pull_in ⟨s.words, s.b64 >>> (q + 1), s.count - (q + 1)⟩)
    else
      unarySlow (s.count.toNat + 64 * s.words.length + 1) s 0
  if qs.1 < bdgr_cut_off then
    let rs := pull_bits qs.2 bits
    ((qs.1 <<< bits) ||| rs.1, rs.2)
  else
    pull_bits qs.2 8

/-- `int delta = rice % 2 == 0 ? rice / 2 : -(rice / 2) - 1;
byte v = (byte)(prediction + delta);` -/
def decodePixelVal (prediction rice : Nat) : Nat :=
  let delta : Int := if rice % 2 = 0 then ((rice / 2 : Nat) : Int)
                     else -((rice / 2 : Nat) : Int) - 1
  (((prediction : Int) + delta) % 256).toNat

structure DecLoopRes where
  out : List Nat
  s : BRState
  bits : Nat
  prediction : Nat

/-- The pixel loop of `bdgr_decode` (`while (d < end) { ... }`); `out` is the
output written through `d` so far. -/
def decodeLoop : Nat → BRState → Nat → Nat → List Nat → DecLoopRes
  | 0, s, bits, pred, acc => ⟨acc, s, bits, pred⟩
  | n + 1, s, bits, pred, acc =>
    let rs := decodeSymbol s bits
    let v := decodePixelVal pred rs.1
    decodeLoop n rs.2 (bdgr_k4rice.getD rs.1 0) v (acc ++ [v])

structure DecResult where
  out : List Nat
  ret : Nat

/-- `bdgr_decode(input, bytes, output, width, height)`: primes the reader,
pulls the 16-bit header fields, then decodes `w * h` pixels. The `width` and
`height` arguments are only checked by a debug assertion in the source
(`implore(w == width && h == height); (void)width; (void)height;`) and do
not influence the result; `bytes` is likewise only checked for
8-divisibility. -/
def bdgr_decode (input : List Nat) (width height : Nat) : DecResult :=
  let s1 := pull_in ⟨input, 0, 0⟩
  let ws := pull_bits s1 16
  let hs := pull_bits ws.2 16
  let r := decodeLoop (ws.1 * hs.1) hs.2 bdgr_start_with_bits 0 []
  ⟨r.out, ws.1 * hs.1⟩

/-- `bdgr_header(input, w, h)`: a fresh local reader with `b64 = 0` and
`count = 0`, then two 16-bit pulls. Note the missing initial `pull_in`
(present in `bdgr_decode`) — translated faithfully. -/
def bdgr_header (input : List Nat) : Nat × Nat :=
  let ws := pull_bits ⟨input, 0, 0⟩ 16
  let hs := pull_bits ws.2 16
  (ws.1, hs.1)

/-! ## Reader correctness -/

/-- The reader state holds the bit stream `S`: the low `count` bits of the
register followed by the bits of the words not yet pulled in. -/
def reprR (s : BRState) (S : List Bool) : Prop :=
  0 ≤ s.count ∧ s.count ≤ 64 ∧ s.b64 < 2 ^ s.count.toNat ∧
  (∀ w ∈ s.words, w < 2 ^ 64) ∧
  bitsLE s.count.toNat s.b64 ++ wordsToBits s.words = S

theorem wordsToBits_ne_nil {ws : List Nat} (h : wordsToBits ws ≠ []) : ws ≠ [] := by
  intro hnil
  rw [hnil] at h
  exact h rfl

theorem pull_in_id {s : BRState} (h : s.count ≠ 0) : pull_in s = s := by
  rw [pull_in, if_neg h]

theorem pull_in_repr {s : BRState} {S : List Bool} (h : reprR s S) (hne : S ≠ []) :
    reprR (pull_in s) S ∧ 0 < (pull_in s).count := by
  obtain ⟨h0, h64, hblt, hwlt, hbits⟩ := h
  by_cases hc : s.count = 0
  · rw [pull_in, if_pos hc]
    rw [hc] at hbits
    rw [show (0 : Int).toNat = 0 from rfl, bitsLE_zero, List.nil_append] at hbits
    -- hbits : wordsToBits s.words = S
    cases hl : s.words with
    | nil =>
      exfalso
      apply hne
      rw [← hbits, hl]
      rfl
    | cons w ws =>
      rw [hl] at hwlt hbits
      refine ⟨⟨by norm_num, by norm_num, ?_, ?_, ?_⟩, by norm_num⟩
      · show w < 2 ^ (64 : Int).toNat
        exact hwlt w (List.mem_cons_self w ws)
      · show ∀ x ∈ ws, x < 2 ^ 64
        intro x hx
        exact hwlt x (List.mem_cons_of_mem w hx)
      · show bitsLE (64 : Int).toNat w ++ wordsToBits ws = S
        exact hbits
  · rw [pull_in_id hc]
    exact ⟨⟨h0, h64, hblt, hwlt, hbits⟩, by omega⟩

theorem pull_in_count_nonneg {s : BRState} (h : 0 ≤ s.count) :
    0 ≤ (pull_in s).count := by
  rw [pull_in]
  split
  · norm_num
  · exact h

theorem reprR_length {s : BRState} {S : List Bool} (h : reprR s S) :
    S.length = s.count.toNat + 64 * s.words.length := by
  obtain ⟨_, _, _, _, hbits⟩ := h
  rw [← hbits]
  simp [wordsToBits_length]

/-- Consuming the head bit: `b64 & 1` is the head of the stream, and
`(b64 >>= 1, count--)` leaves a state holding the tail. -/
theorem reprR_cons_head {s : BRState} {b : Bool} {S : List Bool}
    (h : reprR s (b :: S)) (hc : 0 < s.count) :
    s.b64 % 2 = (if b then 1 else 0)
    ∧ reprR ⟨s.words, s.b64 >>> 1, s.count - 1⟩ S := by
  obtain ⟨h0, h64, hblt, hwlt, hbits⟩ := h
  have hc1 : 1 ≤ s.count.toNat := by omega
  have hceq : s.count.toNat = (s.count.toNat - 1) + 1 := by omega
  rw [hceq, bitsLE_succ] at hbits
  have hhead : (decide (s.b64 % 2 = 1)) = b := by
    have := congrArg (fun l => l.headD false) hbits
    simpa using this
  have htail : bitsLE (s.count.toNat - 1) (s.b64 / 2) ++ wordsToBits s.words = S := by
    have := congrArg List.tail hbits
    simpa using this
  constructor
  · cases b
    · have : ¬(s.b64 % 2 = 1) := by
        intro hx
        rw [hx] at hhead
        simp at hhead
      simp only [if_neg Bool.false_ne_true]
      omega
    · have : s.b64 % 2 = 1 := by
        by_contra hx
        rw [decide_eq_false hx] at hhead
        exact Bool.false_ne_true hhead
      simp [this]
  · have htn : (s.count - 1).toNat = s.count.toNat - 1 := by omega
    refine ⟨show (0 : Int) ≤ s.count - 1 by omega,
      show s.count - 1 ≤ (64 : Int) by omega, ?_, hwlt, ?_⟩
    · rw [htn]
      have := shiftRight_lt_two_pow (n := s.count.toNat) (k := 1) hblt hc1
      exact this
    · rw [htn]
      have hdiv : s.b64 >>> 1 = s.b64 / 2 := by
        rw [Nat.shiftRight_eq_div_pow, pow_one]
      rw [hdiv]
      exact htail

/-- Correctness of the bit-by-bit branch of `pull_bits`. -/
theorem pullBitsSlow_correct : ∀ (B rest : List Bool) (s : BRState) (v j : Nat),
    reprR s (B ++ rest) → (0 < B.length → 0 < s.count) → v < 2 ^ j →
    (pullBitsSlow B.length s v (2 ^ j)).1 = v + 2 ^ j * valLE B
    ∧ (rest ≠ [] → reprR (pullBitsSlow B.length s v (2 ^ j)).2 rest) := by
  intro B
  induction B with
  | nil =>
    intro rest s v j h _ _
    exact ⟨by simp [pullBitsSlow, valLE], fun _ => h⟩
  | cons b B ih =>
    intro rest s v j h hc hv
    have hc' : 0 < s.count := hc (by simp)
    obtain ⟨hhead, htail⟩ := reprR_cons_head (S := B ++ rest) h hc'
    have hv' : (if s.b64 &&& 1 = 1 then v ||| 2 ^ j else v)
        = v + (if b then 2 ^ j else 0) := by
      cases b
      · have h0 : s.b64 % 2 = 0 := by simpa using hhead
        rw [Nat.and_one_is_mod, h0]
        norm_num
      · have h1 : s.b64 % 2 = 1 := by simpa using hhead
        rw [Nat.and_one_is_mod, h1, if_pos rfl, if_pos rfl]
        calc v ||| 2 ^ j = 2 ^ j * 1 ||| v := by rw [mul_one, Nat.or_comm]
          _ = 2 ^ j * 1 + v := (Nat.mul_add_lt_is_or hv 1).symm
          _ = v + 2 ^ j := by ring
    have hmask : (2 ^ j) <<< 1 = 2 ^ (j + 1) := by
      rw [Nat.shiftLeft_eq, pow_one, pow_succ]
    have hunfold : pullBitsSlow ((b :: B).length) s v (2 ^ j)
        = pullBitsSlow B.length (pull_in ⟨s.words, s.b64 >>> 1, s.count - 1⟩)
            (v + (if b then 2 ^ j else 0)) (2 ^ (j + 1)) := by
      show pullBitsSlow B.length _ _ ((2 ^ j) <<< 1) = _
      rw [hv', hmask]
    rw [hunfold]
    have hvlt : v + (if b then 2 ^ j else 0) < 2 ^ (j + 1) := by
      have : (2 : Nat) ^ (j + 1) = 2 ^ j * 2 := pow_succ 2 j
      cases hb : b <;> simp <;> omega
    have hval : valLE (b :: B) = (if b then 1 else 0) + 2 * valLE B := rfl
    by_cases hBr : B ++ rest = []
    · have hB : B = [] := by
        rcases List.append_eq_nil.mp hBr with ⟨h1, _⟩
        exact h1
      have hrest : rest = [] := by
        rcases List.append_eq_nil.mp hBr with ⟨_, h2⟩
        exact h2
      subst hB
      refine ⟨?_, fun hne => absurd hrest hne⟩
      show (v + (if b then 2 ^ j else 0), _).1 = v + 2 ^ j * valLE [b]
      have : valLE [b] = (if b then 1 else 0) := by cases b <;> rfl
      rw [this]
      cases b <;> simp
    · obtain ⟨hrepr, hcnt⟩ := pull_in_repr htail hBr
      obtain ⟨ih1, ih2⟩ := ih rest _ (v + (if b then 2 ^ j else 0)) (j + 1)
        hrepr (fun _ => hcnt) hvlt
      refine ⟨?_, ih2⟩
      rw [ih1, hval]
      have : (2 : Nat) ^ (j + 1) = 2 ^ j * 2 := pow_succ 2 j
      cases b <;> simp [this] <;> ring

/-- Correctness of `pull_bits`. -/
theorem pull_bits_correct {s : BRState} {B rest : List Bool} {n : Nat}
    (h : reprR s (B ++ rest)) (hlen : B.length = n) (hn : n ≤ 32)
    (hc : 0 < n → 0 < s.count) :
    (pull_bits s n).1 = valLE B
    ∧ (rest ≠ [] → reprR (pull_bits s n).2 rest) := by
  obtain ⟨h0, h64, hblt, hwlt, hbits⟩ := h
  rw [pull_bits]
  by_cases hfast : (n : Int) ≤ s.count
  · rw [if_pos hfast]
    have hnc : n ≤ s.count.toNat := by omega
    have hBeq : B = bitsLE n s.b64 := by
      have h1 : (B ++ rest).take n = B := List.take_left' hlen
      have h2 : (bitsLE s.count.toNat s.b64 ++ wordsToBits s.words).take n
          = bitsLE n s.b64 := by
        rw [List.take_append_of_le_length (by simpa using hnc), bitsLE_take _ hnc]
      rw [← hbits, h2] at h1
      exact h1.symm
    constructor
    · show s.b64 % 2 ^ 32 &&& (1 <<< n - 1) = valLE B
      rw [Nat.shiftLeft_eq, one_mul, Nat.and_pow_two_sub_one_eq_mod,
        Nat.mod_mod_of_dvd _ (pow_dvd_pow 2 hn), hBeq, valLE_bitsLE]
    · intro _
      have htn : (s.count - n).toNat = s.count.toNat - n := by omega
      refine ⟨show (0 : Int) ≤ s.count - (n : Int) by omega,
        show s.count - (n : Int) ≤ 64 by omega, ?_, hwlt, ?_⟩
      · rw [htn]
        exact shiftRight_lt_two_pow hblt hnc
      · rw [htn]
        have hdrop1 : (B ++ rest).drop n = rest := List.drop_left' hlen
        have hdrop2 : (bitsLE s.count.toNat s.b64 ++ wordsToBits s.words).drop n
            = bitsLE (s.count.toNat - n) (s.b64 / 2 ^ n) ++ wordsToBits s.words := by
          rw [List.drop_append_of_le_length (by simpa using hnc), bitsLE_drop _ hnc]
        have hh : bitsLE (s.count.toNat - n) (s.b64 / 2 ^ n) ++ wordsToBits s.words
            = rest := by
          rw [← hdrop2, hbits, hdrop1]
        rw [Nat.shiftRight_eq_div_pow]
        exact hh
  · rw [if_neg hfast]
    have hn0 : 0 < n := by omega
    have h2 := pullBitsSlow_correct B rest s 0 0 ⟨h0, h64, hblt, hwlt, hbits⟩
      (fun _ => hc hn0) (by norm_num)
    rw [hlen, pow_zero] at h2
    obtain ⟨h21, h22⟩ := h2
    exact ⟨by rw [h21]; ring, h22⟩

theorem ctzAux_spec : ∀ (f q M : Nat), q < f →
    ctzAux f (2 ^ q + 2 ^ (q + 1) * M) = q := by
  intro f
  induction f with
  | zero => intro q M h; omega
  | succ f ih =>
    intro q M h
    cases q with
    | zero =>
      show ctzAux (f + 1) (2 ^ 0 + 2 ^ 1 * M) = 0
      have hodd : (2 ^ 0 + 2 ^ 1 * M) % 2 = 1 := by
        have : (2 : Nat) ^ 0 + 2 ^ 1 * M = 1 + 2 * M := by norm_num
        rw [this]
        omega
      simp only [ctzAux, hodd, if_pos]
    | succ q =>
      have heq : 2 ^ (q + 1) + 2 ^ (q + 2) * M = 2 * (2 ^ q + 2 ^ (q + 1) * M) := by
        ring
      have heven : (2 ^ (q + 1) + 2 ^ (q + 2) * M) % 2 = 0 := by
        rw [heq]
        omega
      have hdiv : (2 ^ (q + 1) + 2 ^ (q + 2) * M) / 2 = 2 ^ q + 2 ^ (q + 1) * M := by
        rw [heq]
        omega
      show ctzAux (f + 1) (2 ^ (q + 1) + 2 ^ (q + 2) * M) = q + 1
      have hstep : ctzAux (f + 1) (2 ^ (q + 1) + 2 ^ (q + 2) * M)
          = 1 + ctzAux f ((2 ^ (q + 1) + 2 ^ (q + 2) * M) / 2) := by
        simp only [ctzAux]
        rw [if_neg (by omega)]
      rw [hstep, hdiv, ih q M (by omega)]
      omega

theorem ctz32_spec (q M : Nat) (hq : q < 32) :
    ctz32 (2 ^ q + 2 ^ (q + 1) * M) = q := by
  rw [ctz32]
  have hpow : (2 : Nat) ^ (q + 1) * 2 ^ (31 - q) = 2 ^ 32 := by
    rw [← pow_add]
    congr 1
    omega
  have hM := Nat.div_add_mod M (2 ^ (31 - q))
  set t := M / 2 ^ (31 - q)
  set m := M % 2 ^ (31 - q)
  have hm : m < 2 ^ (31 - q) := Nat.mod_lt _ (Nat.two_pow_pos _)
  have hsum : 2 ^ q + 2 ^ (q + 1) * M = (2 ^ q + 2 ^ (q + 1) * m) + t * 2 ^ 32 := by
    calc 2 ^ q + 2 ^ (q + 1) * M = 2 ^ q + 2 ^ (q + 1) * (2 ^ (31 - q) * t + m) := by
          rw [hM]
      _ = (2 ^ q + 2 ^ (q + 1) * m) + t * (2 ^ (q + 1) * 2 ^ (31 - q)) := by ring
      _ = (2 ^ q + 2 ^ (q + 1) * m) + t * 2 ^ 32 := by rw [hpow]
  have hlt : 2 ^ q + 2 ^ (q + 1) * m < 2 ^ 32 := by
    have h1 : 2 ^ (q + 1) * (m + 1) ≤ 2 ^ (q + 1) * 2 ^ (31 - q) :=
      Nat.mul_le_mul_left _ (by omega)
    rw [hpow] at h1
    have h2 : (2 : Nat) ^ q < 2 ^ (q + 1) := Nat.pow_lt_pow_right (by omega) (by omega)
    have h3 : 2 ^ (q + 1) * (m + 1) = 2 ^ (q + 1) * m + 2 ^ (q + 1) := by ring
    omega
  rw [hsum, Nat.add_mul_mod_self_right, Nat.mod_eq_of_lt hlt]
  exact ctzAux_spec 32 q m hq

theorem replicate_true_ne_nil (u : Nat) (rest : List Bool) :
    List.replicate u false ++ true :: rest ≠ [] := by
  cases u <;> simp

/-- Correctness of the bit-by-bit unary reader. -/
theorem unarySlow_correct : ∀ (u : Nat) (rest : List Bool) (s : BRState) (q0 fuel : Nat),
    reprR s (List.replicate u false ++ true :: rest) → 0 < s.count → u + 1 ≤ fuel →
    (unarySlow fuel s q0).1 = q0 + u
    ∧ 0 ≤ (unarySlow fuel s q0).2.count
    ∧ (rest ≠ [] → reprR (unarySlow fuel s q0).2 rest
        ∧ 0 < (unarySlow fuel s q0).2.count) := by
  intro u
  induction u with
  | zero =>
    intro rest s q0 fuel h hc hf
    obtain ⟨fuel', rfl⟩ : ∃ f, fuel = f + 1 := ⟨fuel - 1, by omega⟩
    rw [List.replicate, List.nil_append] at h
    obtain ⟨hhead, htail⟩ := reprR_cons_head h hc
    have hbit : s.b64 &&& 1 = 1 := by
      rw [Nat.and_one_is_mod]
      simpa using hhead
    have hun : unarySlow (fuel' + 1) s q0
        = (q0, pull_in ⟨s.words, s.b64 >>> 1, s.count - 1⟩) := by
      simp only [unarySlow, hbit]
      simp
    rw [hun]
    refine ⟨by omega, ?_, ?_⟩
    · exact pull_in_count_nonneg (by have := htail.1; exact this)
    · intro hne
      exact pull_in_repr htail hne
  | succ u ih =>
    intro rest s q0 fuel h hc hf
    obtain ⟨fuel', rfl⟩ : ∃ f, fuel = f + 1 := ⟨fuel - 1, by omega⟩
    rw [List.replicate_succ, List.cons_append] at h
    obtain ⟨hhead, htail⟩ := reprR_cons_head h hc
    have hbit : s.b64 &&& 1 = 0 := by
      rw [Nat.and_one_is_mod]
      simpa using hhead
    have hun : unarySlow (fuel' + 1) s q0
        = unarySlow fuel' (pull_in ⟨s.words, s.b64 >>> 1, s.count - 1⟩) (q0 + 1) := by
      simp only [unarySlow, hbit]
      rw [if_neg (by omega)]
    rw [hun]
    obtain ⟨hrepr, hcnt⟩ := pull_in_repr htail (replicate_true_ne_nil u rest)
    obtain ⟨ih1, ih2, ih3⟩ := ih rest _ (q0 + 1) fuel' hrepr hcnt (by omega)
    exact ⟨by rw [ih1]; omega, ih2, ih3⟩

/-- Decomposition of a symbol's bits into unary prefix, stop bit and tail. -/
theorem riceBits_decomp (k r : Nat) :
    riceBits k r = List.replicate (min (r >>> k) bdgr_cut_off) false
      ++ true :: (if r >>> k < bdgr_cut_off then bitsLE k r else bitsLE 8 r) := by
  rw [riceBits]
  by_cases h : r >>> k < bdgr_cut_off
  · rw [if_pos h, if_pos h, min_eq_left (le_of_lt h)]
  · rw [if_neg h, if_neg h, min_eq_right (by omega)]

/-- Correctness of the `ctz` fast path of the unary reader. -/
theorem ctz_branch {s : BRState} {u : Nat} {rest' : List Bool}
    (h : reprR s (List.replicate u false ++ true :: rest'))
    (hcut : (11 : Int) < s.count) (hu : u ≤ 11) :
    ctz32 s.b64 = u
    ∧ reprR ⟨s.words, s.b64 >>> (u + 1), s.count - ((u : Int) + 1)⟩ rest' := by
  obtain ⟨h0, h64, hblt, hwlt, hbits⟩ := h
  have hc12 : 12 ≤ s.count.toNat := by omega
  have huc : u + 1 ≤ s.count.toNat := by omega
  have hlenA : (List.replicate u false ++ [true]).length = u + 1 := by simp
  have hassoc : List.replicate u false ++ true :: rest'
      = (List.replicate u false ++ [true]) ++ rest' := by simp
  rw [hassoc] at hbits
  have htake : (bitsLE s.count.toNat s.b64).take (u + 1)
      = List.replicate u false ++ [true] := by
    have h1 := congrArg (List.take (u + 1)) hbits
    rw [List.take_append_of_le_length (by simpa using huc),
      List.take_left' hlenA] at h1
    exact h1
  have hdrop : (bitsLE s.count.toNat s.b64).drop (u + 1) ++ wordsToBits s.words
      = rest' := by
    have h1 := congrArg (List.drop (u + 1)) hbits
    rw [List.drop_append_of_le_length (by simpa using huc),
      List.drop_left' hlenA] at h1
    exact h1
  -- the register value has the shape 2^u + 2^(u+1) * M
  have hval : s.b64 = 2 ^ u + 2 ^ (u + 1)
      * valLE ((bitsLE s.count.toNat s.b64).drop (u + 1)) := by
    have hsplit : bitsLE s.count.toNat s.b64
        = (List.replicate u false ++ [true])
          ++ (bitsLE s.count.toNat s.b64).drop (u + 1) := by
      conv_lhs => rw [← List.take_append_drop (u + 1) (bitsLE s.count.toNat s.b64)]
      rw [htake]
    calc s.b64 = valLE (bitsLE s.count.toNat s.b64) :=
          (valLE_bitsLE_of_lt hblt).symm
      _ = valLE ((List.replicate u false ++ [true])
          ++ (bitsLE s.count.toNat s.b64).drop (u + 1)) := by rw [← hsplit]
      _ = 2 ^ u + 2 ^ (u + 1) * valLE ((bitsLE s.count.toNat s.b64).drop (u + 1)) := by
          rw [valLE_append, hlenA]
          have hA : valLE (List.replicate u false ++ [true]) = 2 ^ u := by
            rw [valLE_append, valLE_replicate_false, List.length_replicate]
            simp [valLE]
          rw [hA]
  constructor
  · rw [hval]
    exact ctz32_spec u _ (by omega)
  · have htn : (s.count - ((u : Int) + 1)).toNat = s.count.toNat - (u + 1) := by omega
    refine ⟨show (0 : Int) ≤ s.count - ((u : Int) + 1) by omega,
      show s.count - ((u : Int) + 1) ≤ 64 by omega, ?_, hwlt, ?_⟩
    · rw [htn]
      exact shiftRight_lt_two_pow hblt huc
    · rw [htn, Nat.shiftRight_eq_div_pow, ← bitsLE_drop _ huc]
      exact hdrop

/-- Reading one symbol with the shared parameter recovers it and leaves the
rest of the stream (when there is one). -/
theorem decodeSymbol_correct {s : BRState} {k r : Nat} {rest : List Bool}
    (h : reprR s (riceBits k r ++ rest)) (hr : r < 256) (hk : k ≤ 8) :
    (decodeSymbol s k).1 = r
    ∧ (rest ≠ [] → reprR (decodeSymbol s k).2 rest) := by
  have hco : bdgr_cut_off = 11 := rfl
  set u := min (r >>> k) bdgr_cut_off with hu
  set tb := (if r >>> k < bdgr_cut_off then bitsLE k r else bitsLE 8 r) with htb
  have hshape : riceBits k r ++ rest
      = List.replicate u false ++ true :: (tb ++ rest) := by
    rw [riceBits_decomp, ← hu, ← htb, List.append_assoc, List.cons_append]
  rw [hshape] at h
  obtain ⟨h1, hc1⟩ := pull_in_repr h (replicate_true_ne_nil _ _)
  have hu11 : u ≤ 11 := by
    rw [hu, hco]
    exact min_le_right _ _
  obtain ⟨s2, hqs, hs2nn, hs2⟩ :
      ∃ s2 : BRState,
        (if (bdgr_cut_off : Int) < (pull_in s).count then
          (ctz32 (pull_in s).b64,
            pull_in ⟨(pull_in s).words,
              (pull_in s).b64 >>> (ctz32 (pull_in s).b64 + 1),
              (pull_in s).count - (ctz32 (pull_in s).b64 + 1)⟩)
        else
          unarySlow ((pull_in s).count.toNat + 64 * (pull_in s).words.length + 1)
            (pull_in s) 0) = (u, s2)
        ∧ 0 ≤ s2.count
        ∧ (tb ++ rest ≠ [] → reprR s2 (tb ++ rest) ∧ 0 < s2.count) := by
    by_cases hcut : (bdgr_cut_off : Int) < (pull_in s).count
    · have hcut' : (11 : Int) < (pull_in s).count := by
        have : ((bdgr_cut_off : Nat) : Int) = 11 := rfl
        rw [this] at hcut
        exact hcut
      obtain ⟨hctz, hstate⟩ := ctz_branch h1 hcut' hu11
      refine ⟨pull_in ⟨(pull_in s).words,
          (pull_in s).b64 >>> (u + 1),
          (pull_in s).count - ((u : Int) + 1)⟩, ?_, ?_, ?_⟩
      · rw [if_pos hcut, hctz]
      · exact pull_in_count_nonneg hstate.1
      · intro hne
        exact pull_in_repr hstate hne
    · have hfuel : u + 1
          ≤ (pull_in s).count.toNat + 64 * (pull_in s).words.length + 1 := by
        have hlen := reprR_length h1
        have : (List.replicate u false ++ true :: (tb ++ rest)).length = u + 1 + (tb ++ rest).length := by
          simp
          omega
        omega
      obtain ⟨hv, hnn, hcond⟩ := unarySlow_correct u (tb ++ rest) (pull_in s) 0 _ h1 hc1 hfuel
      refine ⟨(unarySlow ((pull_in s).count.toNat + 64 * (pull_in s).words.length + 1)
          (pull_in s) 0).2, ?_, hnn, hcond⟩
      rw [if_neg hcut]
      have hv' : (unarySlow ((pull_in s).count.toNat + 64 * (pull_in s).words.length + 1)
          (pull_in s) 0).1 = u := by omega
      rw [← hv']
  simp only [decodeSymbol]
  rw [hqs]
  by_cases hcase : r >>> k < bdgr_cut_off
  · -- remainder path
    have huq : u = r >>> k := by
      rw [hu]
      exact min_eq_left (le_of_lt hcase)
    have htbe : tb = bitsLE k r := by
      rw [htb, if_pos hcase]
    rw [if_pos (show (u, s2).1 < bdgr_cut_off by rw [show (u, s2).1 = u from rfl, huq]; exact hcase)]
    dsimp only
    by_cases hke : tb ++ rest = []
    · have htbnil : tb = [] := (List.append_eq_nil.mp hke).1
      have hkr : k = 0 := by
        rw [htbe] at htbnil
        have hl := congrArg List.length htbnil
        simpa using hl
      have hrest : rest = [] := (List.append_eq_nil.mp hke).2
      subst hkr
      refine ⟨?_, fun hne => absurd hrest hne⟩
      rw [pull_bits, if_pos (show ((0 : Nat) : Int) ≤ s2.count by exact_mod_cast hs2nn)]
      dsimp only
      have h1 : (1 <<< 0 : Nat) - 1 = 0 := by decide
      rw [h1, Nat.and_zero, Nat.shiftLeft_zero, Nat.or_zero, huq, Nat.shiftRight_zero]
    · obtain ⟨hrepr2, hcnt2⟩ := hs2 hke
      rw [htbe] at hrepr2
      obtain ⟨hv2, hpost⟩ := pull_bits_correct hrepr2 (bitsLE_length k r)
        (by omega) (fun _ => hcnt2)
      refine ⟨?_, hpost⟩
      rw [hv2, valLE_bitsLE, huq, Nat.shiftLeft_eq, Nat.shiftRight_eq_div_pow]
      have hlt : r % 2 ^ k < 2 ^ k := Nat.mod_lt _ (Nat.two_pow_pos k)
      calc r / 2 ^ k * 2 ^ k ||| r % 2 ^ k
          = 2 ^ k * (r / 2 ^ k) ||| r % 2 ^ k := by rw [mul_comm]
        _ = 2 ^ k * (r / 2 ^ k) + r % 2 ^ k := (Nat.mul_add_lt_is_or hlt _).symm
        _ = r := Nat.div_add_mod r (2 ^ k)
  · have huq : u = bdgr_cut_off := by
      rw [hu]
      exact min_eq_right (Nat.not_lt.mp hcase)
    have htbe : tb = bitsLE 8 r := by
      rw [htb, if_neg hcase]
    rw [if_neg (show ¬((u, s2).1 < bdgr_cut_off) by
      rw [show (u, s2).1 = u from rfl, huq]; exact lt_irrefl _)]
    have hne2 : tb ++ rest ≠ [] := by
      rw [htbe]
      intro heq
      have h1 := (List.append_eq_nil.mp heq).1
      have hl := congrArg List.length h1
      simp at hl
    obtain ⟨hrepr2, hcnt2⟩ := hs2 hne2
    rw [htbe] at hrepr2
    obtain ⟨hv2, hpost⟩ := pull_bits_correct hrepr2 (bitsLE_length 8 r)
      (by omega) (fun _ => hcnt2)
    refine ⟨?_, hpost⟩
    rw [hv2, valLE_bitsLE]
    have h256 : (2 : Nat) ^ 8 = 256 := by norm_num
    rw [h256]
    omega

/-! ## Residual fold round trip and the decode loop -/

/-- The modulo-256 fold is inverted exactly by the decoder's unfolding. -/
theorem fold_roundtrip (px pred : Nat) (hpx : px < 256) (hpred : pred < 256) :
    foldRice px pred < 256 ∧ decodePixelVal pred (foldRice px pred) = px := by
  simp only [foldRice, decodePixelVal]
  split_ifs <;> omega

/-- The sub-frame `frame[i], frame[i+1], …, frame[i+n-1]` that the encoder
walks (`*s++` reads) and the decoder writes back. -/
def frameSlice (frame : List Nat) : Nat → Nat → List Nat
  | _, 0 => []
  | i, n + 1 => frame.getD i 0 :: frameSlice frame (i + 1) n

theorem frameSlice_cons (a : Nat) (l : List Nat) :
    ∀ (n i : Nat), frameSlice (a :: l) (i + 1) n = frameSlice l i n := by
  intro n
  induction n with
  | zero => intro i; rfl
  | succ n ih =>
    intro i
    show (a :: l).getD (i + 1) 0 :: frameSlice (a :: l) (i + 2) n
        = l.getD i 0 :: frameSlice l (i + 1) n
    rw [List.getD_cons_succ, ih (i + 1)]

theorem frameSlice_self : ∀ frame : List Nat, frameSlice frame 0 frame.length = frame := by
  intro frame
  induction frame with
  | nil => rfl
  | cons a l ih =>
    show (a :: l).getD 0 0 :: frameSlice (a :: l) 1 l.length = a :: l
    rw [List.getD_cons_zero, frameSlice_cons a l l.length 0, ih]

theorem getD_lt_256 {frame : List Nat} (h : ∀ b ∈ frame, b < 256) (j : Nat) :
    frame.getD j 0 < 256 := by
  by_cases hj : j < frame.length
  · rw [List.getD_eq_getElem _ _ hj]
    exact h _ (List.getElem_mem hj)
  · rw [List.getD_eq_default _ _ (by omega)]
    omega

theorem riceBits_ne_nil (k r : Nat) : riceBits k r ≠ [] := by
  rw [riceBits_decomp]
  exact replicate_true_ne_nil _ _

theorem symbolsBits_succ_ne_nil (frame : List Nat) (n i bits pred : Nat) :
    symbolsBits frame (n + 1) i bits pred ≠ [] := by
  show riceBits bits (foldRice (frame.getD i 0) pred)
      ++ symbolsBits frame n (i + 1) _ _ ≠ []
  intro heq
  exact riceBits_ne_nil _ _ (List.append_eq_nil.mp heq).1

/-- The decoder's pixel loop reproduces the encoder's pixels. -/
theorem decodeLoop_correct :
    ∀ (n : Nat) (frame : List Nat) (i : Nat) (s : BRState) (bits pred : Nat)
      (acc : List Nat) (tail : List Bool),
    reprR s (symbolsBits frame n i bits pred ++ tail) →
    (∀ b ∈ frame, b < 256) → pred < 256 → bits ≤ 8 →
    (decodeLoop n s bits pred acc).out = acc ++ frameSlice frame i n := by
  intro n
  induction n with
  | zero =>
    intro frame i s bits pred acc tail _ _ _ _
    show acc = acc ++ frameSlice frame i 0
    rw [frameSlice]
    simp
  | succ n ih =>
    intro frame i s bits pred acc tail h hframe hpred hbits
    have hpx : frame.getD i 0 < 256 := getD_lt_256 hframe i
    obtain ⟨hriceLt, hinv⟩ := fold_roundtrip (frame.getD i 0) pred hpx hpred
    have hstream : symbolsBits frame (n + 1) i bits pred ++ tail
        = riceBits bits (foldRice (frame.getD i 0) pred)
          ++ (symbolsBits frame n (i + 1)
              (bdgr_k4rice.getD (foldRice (frame.getD i 0) pred) 0) (frame.getD i 0)
            ++ tail) := by
      show (riceBits bits (foldRice (frame.getD i 0) pred) ++ _) ++ tail = _
      rw [List.append_assoc]
    rw [hstream] at h
    obtain ⟨hds1, hds2⟩ := decodeSymbol_correct h hriceLt hbits
    simp only [decodeLoop]
    rw [hds1, hinv]
    by_cases hrest : symbolsBits frame n (i + 1)
        (bdgr_k4rice.getD (foldRice (frame.getD i 0) pred) 0) (frame.getD i 0)
        ++ tail = []
    · have hn0 : n = 0 := by
        by_contra hn
        obtain ⟨m, rfl⟩ : ∃ m, n = m + 1 := ⟨n - 1, by omega⟩
        exact symbolsBits_succ_ne_nil frame m (i + 1) _ _
          (List.append_eq_nil.mp hrest).1
      subst hn0
      rfl
    · have hrepr := hds2 hrest
      rw [ih frame (i + 1) _ _ _ (acc ++ [frame.getD i 0]) tail hrepr hframe hpx
        (le_trans (bdgr_k4rice_le _) (by omega))]
      rw [List.append_assoc]
      rfl

/-! ## Round trip of the full codec -/

theorem pull_bits_fast_state {s : BRState} {n : Nat} (h : (n : Int) ≤ s.count) :
    (pull_bits s n).2 = ⟨s.words, s.b64 >>> n, s.count - n⟩ := by
  rw [pull_bits, if_pos h]

theorem bdgr_encode_WInv (data : List Nat) (w h : Nat) :
    WInv (encodeLoop data 0 (w * h)
        (push_bitsW (push_bitsW ⟨[], 0, 0⟩ w 16) h 16) bdgr_start_with_bits 0).st
      (encodedBits data w h) := by
  rw [encodeLoop_st, push_bitsW_eq, push_bitsW_eq, ← pushBitList_append,
    ← pushBitList_append]
  have h1 := pushBitList_WInv WInv_init
    (bitsLE 16 w ++ bitsLE 16 h
      ++ symbolsBits data (w * h) 0 bdgr_start_with_bits 0)
  rw [List.nil_append] at h1
  rw [encodedBits, ← List.append_assoc]
  exact h1

/-- The round trip of the shipped codec, for arbitrary dimensions that fit the
16-bit header. -/
theorem bdgr_roundtrip (data : List Nat) (w h : Nat)
    (hw2 : w < 65536) (hh2 : h < 65536)
    (hlen : data.length = w * h) (hdata : ∀ b ∈ data, b < 256) :
    (bdgr_decode (bdgr_encode data w h).words w h).out = data
    ∧ (bdgr_decode (bdgr_encode data w h).words w h).ret = w * h := by
  have hWinv := bdgr_encode_WInv data w h
  obtain ⟨hwb, hlenw, hwlt⟩ := flushWords_spec hWinv
  have hwords : (bdgr_encode data w h).words
      = flushWords (encodeLoop data 0 (w * h)
          (push_bitsW (push_bitsW ⟨[], 0, 0⟩ w 16) h 16) bdgr_start_with_bits 0).st :=
    rfl
  set W := flushWords (encodeLoop data 0 (w * h)
      (push_bitsW (push_bitsW ⟨[], 0, 0⟩ w 16) h 16) bdgr_start_with_bits 0).st with hW
  set pad := List.replicate ((64 - (encodeLoop data 0 (w * h)
      (push_bitsW (push_bitsW ⟨[], 0, 0⟩ w 16) h 16)
        bdgr_start_with_bits 0).st.count) % 64) false with hpad
  -- the stream seen by the decoder
  have hstream : wordsToBits W = bitsLE 16 w
      ++ (bitsLE 16 h
        ++ (symbolsBits data (w * h) 0 bdgr_start_with_bits 0 ++ pad)) := by
    rw [hwb, encodedBits, List.append_assoc, List.append_assoc]
  have hrepr0 : reprR ⟨W, 0, 0⟩ (bitsLE 16 w
      ++ (bitsLE 16 h
        ++ (symbolsBits data (w * h) 0 bdgr_start_with_bits 0 ++ pad))) := by
    refine ⟨by norm_num, by norm_num, ?_, hwlt, ?_⟩
    · show (0 : Nat) < 2 ^ (0 : Int).toNat
      norm_num
    · show bitsLE (0 : Int).toNat 0 ++ wordsToBits W = _
      rw [show ((0 : Int).toNat) = 0 from rfl, bitsLE_zero, List.nil_append]
      exact hstream
  have hpull : pull_in ⟨W, 0, 0⟩ = ⟨W.tail, W.headD 0, 64⟩ := by
    rw [pull_in, if_pos rfl]
  have hne0 : bitsLE 16 w
      ++ (bitsLE 16 h
        ++ (symbolsBits data (w * h) 0 bdgr_start_with_bits 0 ++ pad)) ≠ [] := by
    intro heq
    have := congrArg List.length heq
    simp at this
  obtain ⟨hrepr1, hcnt1⟩ := pull_in_repr hrepr0 hne0
  -- first header field
  have hcnt64 : (pull_in ⟨W, 0, 0⟩).count = 64 := by rw [hpull]
  have hne1 : bitsLE 16 h
      ++ (symbolsBits data (w * h) 0 bdgr_start_with_bits 0 ++ pad) ≠ [] := by
    intro heq
    have := congrArg List.length heq
    simp at this
  obtain ⟨hwv, hwrest⟩ := pull_bits_correct hrepr1 (bitsLE_length 16 w)
    (by omega) (fun _ => hcnt1)
  have hwval : (pull_bits (pull_in ⟨W, 0, 0⟩) 16).1 = w := by
    rw [hwv, valLE_bitsLE, Nat.mod_eq_of_lt (by omega)]
  have hrepr2 := hwrest hne1
  have hcnt2 : (pull_bits (pull_in ⟨W, 0, 0⟩) 16).2.count = 64 - (16 : Int) := by
    rw [pull_bits_fast_state (by rw [hcnt64]; norm_num), hcnt64]
    show (64 : Int) - ((16 : Nat) : Int) = 64 - 16
    decide
  -- second header field
  obtain ⟨hhv, hhrest⟩ := pull_bits_correct hrepr2 (bitsLE_length 16 h)
    (by omega) (fun _ => by rw [hcnt2]; norm_num)
  have hhval : (pull_bits (pull_bits (pull_in ⟨W, 0, 0⟩) 16).2 16).1 = h := by
    rw [hhv, valLE_bitsLE, Nat.mod_eq_of_lt (by omega)]
  -- the decode loop
  have hout : (decodeLoop (w * h)
      (pull_bits (pull_bits (pull_in ⟨W, 0, 0⟩) 16).2 16).2
      bdgr_start_with_bits 0 []).out = data := by
    by_cases hsymne : symbolsBits data (w * h) 0 bdgr_start_with_bits 0 ++ pad = []
    · -- then w * h = 0, impossible since symbolsBits of a positive count is nonempty,
      -- but also possible when w * h = 0: then data = [] and the loop is empty
      have hwh : w * h = 0 := by
        by_contra hx
        obtain ⟨m, hm⟩ : ∃ m, w * h = m + 1 := ⟨w * h - 1, by omega⟩
        rw [hm] at hsymne
        exact symbolsBits_succ_ne_nil data m 0 _ _ (List.append_eq_nil.mp hsymne).1
      rw [hwh]
      have hdnil : data = [] := List.length_eq_zero.mp (by omega)
      rw [hdnil]
      rfl
    · have hrepr3 := hhrest hsymne
      have := decodeLoop_correct (w * h) data 0 _ bdgr_start_with_bits 0 [] pad
        hrepr3 hdata (by norm_num) (by decide)
      rw [this, List.nil_append]
      rw [← hlen, frameSlice_self]
  constructor
  · show (bdgr_decode W w h).out = data
    simp only [bdgr_decode]
    rw [hwval, hhval]
    exact hout
  · show (bdgr_decode W w h).ret = w * h
    simp only [bdgr_decode]
    rw [hwval, hhval]

/-! ## `bdgr_header` reads nothing

`bdgr_header` never executes the initial `pull_in` that `bdgr_decode` runs
(`pull_in(p, b64, count); // pull in first 64 bits`). Its local `count`
starts at `0`, so `pull_bits` takes the bit-by-bit branch, fails its
`implore(count > 0)` debug assertion, and decrements `count` to `-1`,
after which the `pull_in` inside the loop (guarded by `count == 0`) never
fires: the function returns `(0, 0)` for every input. -/

theorem pullBitsSlow_zero : ∀ (n : Nat) (words : List Nat) (count : Int) (v mask : Nat),
    count ≤ 0 →
    pullBitsSlow n ⟨words, 0, count⟩ v mask = (v, ⟨words, 0, count - n⟩) := by
  intro n
  induction n with
  | zero =>
    intro words count v mask _
    show (v, (⟨words, 0, count⟩ : BRState)) = (v, ⟨words, 0, count - ((0 : Nat) : Int)⟩)
    norm_num
  | succ n ih =>
    intro words count v mask h
    have hstep : pullBitsSlow (n + 1) (⟨words, 0, count⟩ : BRState) v mask
        = pullBitsSlow n (pull_in ⟨words, 0, count - 1⟩) v (mask <<< 1) := by
      simp only [pullBitsSlow]
      norm_num
    rw [hstep, pull_in_id (show (count - 1 : Int) ≠ 0 by omega),
      ih words (count - 1) v (mask <<< 1) (by omega)]
    have hcc : count - 1 - (n : Int) = count - ((n + 1 : Nat) : Int) := by
      push_cast
      ring
    rw [hcc]

/-- In release builds `bdgr_header` returns `(0, 0)` for every input. -/
theorem bdgr_header_eq_zero (input : List Nat) : bdgr_header input = (0, 0) := by
  have h1 : pull_bits (⟨input, 0, 0⟩ : BRState) 16 = (0, ⟨input, 0, 0 - (16 : Nat)⟩) := by
    rw [pull_bits, if_neg (by norm_num)]
    exact pullBitsSlow_zero 16 input 0 0 1 (by norm_num)
  have h2 : pull_bits (⟨input, 0, 0 - ((16 : Nat) : Int)⟩ : BRState) 16
      = (0, ⟨input, 0, 0 - ((16 : Nat) : Int) - (16 : Nat)⟩) := by
    rw [pull_bits, if_neg (by norm_num)]
    exact pullBitsSlow_zero 16 input (0 - ((16 : Nat) : Int)) 0 1 (by norm_num)
  simp only [bdgr_header]
  rw [h1]
  show ((0 : Nat), (pull_bits (⟨input, 0, 0 - ((16 : Nat) : Int)⟩ : BRState) 16).1) = (0, 0)
  rw [h2]

/-! ## The closed form behind `bdgr_k4rice`

Source comment:
```
// bdgr_k4rice is result of bits_estimate() for rice in [0..255]
//   bits = 0;
//   while ((1 << bits) < rice) { bits++; }
//   if (bits > 1) { bits--; } // imperical: compresses a bit more
```
-/

def bits_estimate_loop (rice : Nat) : Nat → Nat → Nat
  | 0, bits => bits
  | fuel + 1, bits => if (1 <<< bits) < rice then bits_estimate_loop rice fuel (bits + 1) else bits

def bits_estimate (rice : Nat) : Nat :=
  let bits := bits_estimate_loop rice rice 0
  if 1 < bits then bits - 1 else bits

theorem clog2_le_self (r : Nat) : Nat.clog 2 r ≤ r :=
  (Nat.le_pow_iff_clog_le (by omega)).mp (le_of_lt (Nat.lt_two_pow r))

theorem bits_estimate_loop_eq : ∀ (fuel k r : Nat), k ≤ Nat.clog 2 r →
    Nat.clog 2 r ≤ k + fuel → bits_estimate_loop r fuel k = Nat.clog 2 r := by
  intro fuel
  induction fuel with
  | zero => intro k r h1 h2; show k = _; omega
  | succ fuel ih =>
    intro k r h1 h2
    show (if (1 <<< k) < r then bits_estimate_loop r fuel (k + 1) else k) = _
    have hsh : (1 <<< k : Nat) = 2 ^ k := by rw [Nat.shiftLeft_eq, one_mul]
    by_cases hck : Nat.clog 2 r ≤ k
    · rw [if_neg]
      · omega
      · rw [hsh]
        have := (Nat.le_pow_iff_clog_le (b := 2) (by omega)).mpr hck
        omega
    · rw [if_pos]
      · exact ih (k + 1) r (by omega) (by omega)
      · rw [hsh]
        by_contra hx
        exact hck ((Nat.le_pow_iff_clog_le (by omega)).mp (by omega))

/-- The while-loop closed form computes
`ceil(log2 r)` minus one when that exceeds one. -/
theorem bits_estimate_eq (r : Nat) :
    bits_estimate r
      = if 1 < Nat.clog 2 r then Nat.clog 2 r - 1 else Nat.clog 2 r := by
  rw [bits_estimate, bits_estimate_loop_eq r 0 r (Nat.zero_le _)
    (by have := clog2_le_self r; omega)]

/-! ## The MED predictor helpers of the exploratory encoder (`loco.c`)

C source:
```
static int prediction(int x, int y, int a, int b, int c) {
    if (y == 0) { return x == 0 ? 0 : a; }
    if (x == 0) { return b; }
    if (c >= maximum(a, b)) { return minimum(a, b); }
    else if (c <= minimum(a, b)) { return maximum(a, b); }
    else { return a + b - c; }
}
static void neighbors(int x, int y, int w, byte* prev, byte* line, neighbors_t* nei) {
    //  c b d
    //  a v
    ns.a = x == 0 ? 0 : line[x - 1];
    ns.c = y == 0 || x == 0 ? ns.a : prev[x - 1];
    ns.b = y == 0 ? ns.a : prev[x];
    ns.d = y == 0 || x == w - 1 ? ns.b : prev[x + 1];
    ns.d1  = ns.d - ns.b;
    ns.d2  = ns.b - ns.c;
    ns.d3  = ns.c - ns.a;
}
```
-/

structure neighbors_t where
  a : Nat
  c : Nat
  b : Nat
  d : Nat
  d1 : Int
  d2 : Int
  d3 : Int

def neighbors (x y w : Nat) (prev line : List Nat) : neighbors_t :=
  let a := if x = 0 then 0 else line.getD (x - 1) 0
  let c := if y = 0 ∨ x = 0 then a else prev.getD (x - 1) 0
  let b := if y = 0 then a else prev.getD x 0
  let d := if y = 0 ∨ x = w - 1 then b else prev.getD (x + 1) 0
  ⟨a, c, b, d, (d : Int) - (b : Int), (b : Int) - (c : Int), (c : Int) - (a : Int)⟩

def prediction (x y : Nat) (a b c : Int) : Int :=
  if y = 0 then (if x = 0 then 0 else a)
  else if x = 0 then b
  else if max a b ≤ c then min a b
  else if c ≤ min a b then max a b
  else a + b - c

/-! ## Symbol lengths and the output-size bound -/

theorem riceBits_length (k r : Nat) :
    (riceBits k r).length
      = min (r >>> k) bdgr_cut_off + 1
        + (if r >>> k < bdgr_cut_off then k else 8) := by
  rw [riceBits_decomp]
  by_cases hq : r >>> k < bdgr_cut_off
  · rw [if_pos hq, if_pos hq]
    simp
    omega
  · rw [if_neg hq, if_neg hq]
    simp

theorem riceBits_length_le {k : Nat} (hk : k ≤ 8) (r : Nat) :
    (riceBits k r).length ≤ 20 := by
  rw [riceBits_length]
  have h1 : min (r >>> k) bdgr_cut_off ≤ 11 := min_le_right _ _
  by_cases hq : r >>> k < bdgr_cut_off
  · rw [if_pos hq]
    have : min (r >>> k) bdgr_cut_off ≤ 10 := by
      rw [min_eq_left (le_of_lt hq)]
      have : bdgr_cut_off = 11 := rfl
      omega
    omega
  · rw [if_neg hq]
    omega

theorem riceBits_length_le_first {r : Nat} (hr : r < 256) :
    (riceBits 7 r).length ≤ 9 := by
  rw [riceBits_length]
  have hq : r >>> 7 < bdgr_cut_off := by
    rw [Nat.shiftRight_eq_div_pow]
    show r / 128 < 11
    omega
  rw [if_pos hq, min_eq_left (le_of_lt hq)]
  have : r >>> 7 ≤ 1 := by
    rw [Nat.shiftRight_eq_div_pow]
    show r / 128 ≤ 1
    omega
  omega

theorem symbolsBits_length_le (frame : List Nat) :
    ∀ (n i bits pred : Nat), bits ≤ 7 →
    (symbolsBits frame n i bits pred).length ≤ 20 * n := by
  intro n
  induction n with
  | zero => intro i bits pred _; show (0 : Nat) ≤ 0; omega
  | succ n ih =>
    intro i bits pred hbits
    show (riceBits bits _ ++ symbolsBits frame n (i + 1) _ _).length ≤ 20 * (n + 1)
    rw [List.length_append]
    have h1 := riceBits_length_le (show bits ≤ 8 by omega)
      (foldRice (frame.getD i 0) pred)
    have h2 := ih (i + 1) (bdgr_k4rice.getD (foldRice (frame.getD i 0) pred) 0)
      (frame.getD i 0) (bdgr_k4rice_le _)
    omega

theorem symbolsBits_length_le_first (frame : List Nat)
    (hframe : ∀ b ∈ frame, b < 256) :
    ∀ (n i pred : Nat), pred < 256 →
    (symbolsBits frame n i bdgr_start_with_bits pred).length ≤ 20 * n := by
  intro n i pred hpred
  cases n with
  | zero => show (0 : Nat) ≤ 0; omega
  | succ n =>
    show (riceBits bdgr_start_with_bits _ ++ symbolsBits frame n (i + 1) _ _).length
      ≤ 20 * (n + 1)
    rw [List.length_append]
    have hrice : foldRice (frame.getD i 0) pred < 256 :=
      (fold_roundtrip _ _ (getD_lt_256 hframe i) hpred).1
    have h1 : (riceBits bdgr_start_with_bits (foldRice (frame.getD i 0) pred)).length
        ≤ 9 := riceBits_length_le_first hrice
    have h2 := symbolsBits_length_le frame n (i + 1)
      (bdgr_k4rice.getD (foldRice (frame.getD i 0) pred) 0) (frame.getD i 0)
      (bdgr_k4rice_le _)
    omega

/-- Sharper bound: the first symbol is emitted with `k = 7` and costs at most
9 bits; every later symbol costs at most 20 bits. -/
theorem symbolsBits_length_bound (frame : List Nat)
    (hframe : ∀ b ∈ frame, b < 256) (n i pred : Nat) (hpred : pred < 256)
    (hn : 1 ≤ n) :
    (symbolsBits frame n i bdgr_start_with_bits pred).length ≤ 9 + 20 * (n - 1) := by
  obtain ⟨m, rfl⟩ : ∃ m, n = m + 1 := ⟨n - 1, by omega⟩
  show (riceBits bdgr_start_with_bits _ ++ symbolsBits frame m (i + 1) _ _).length
    ≤ 9 + 20 * (m + 1 - 1)
  rw [List.length_append]
  have hrice : foldRice (frame.getD i 0) pred < 256 :=
    (fold_roundtrip _ _ (getD_lt_256 hframe i) hpred).1
  have h1 : (riceBits bdgr_start_with_bits (foldRice (frame.getD i 0) pred)).length
      ≤ 9 := riceBits_length_le_first hrice
  have h2 := symbolsBits_length_le frame m (i + 1)
    (bdgr_k4rice.getD (foldRice (frame.getD i 0) pred) 0) (frame.getD i 0)
    (bdgr_k4rice_le _)
  omega

/-- Byte count written by `bdgr_encode`, in closed form: the encoder emits
`⌈(32 + |symbols|) / 64⌉` words of 8 bytes. -/
theorem bdgr_encode_bytes (data : List Nat) (w h : Nat) :
    (bdgr_encode data w h).bytes
      = 8 * (((encodedBits data w h).length + 63) / 64) := by
  have hWinv := bdgr_encode_WInv data w h
  obtain ⟨_, hlenw, _⟩ := flushWords_spec hWinv
  show 8 * (flushWords _).length = _
  rw [hlenw]

theorem decodeLoop_bits_le : ∀ (n : Nat) (s : BRState) (bits pred : Nat)
    (acc : List Nat), bits ≤ 7 → (decodeLoop n s bits pred acc).bits ≤ 7 := by
  intro n
  induction n with
  | zero => intro s bits pred acc h; exact h
  | succ n ih =>
    intro s bits pred acc _
    show (decodeLoop n _ _ _ _).bits ≤ 7
    exact ih _ _ _ _ (bdgr_k4rice_le _)

/-! # The claims -/

/-- C1: Lossless round-trip of the shipped codec: for every frame of width
`w` and height `h` with `1 ≤ w, h ≤ 1024` and arbitrary byte samples,
decoding the encoded stream with the same dimensions reproduces the frame
exactly, byte for byte. -/
theorem C1_roundtrip (data : List Nat) (w h : Nat)
    (hw1 : 1 ≤ w) (hw2 : w ≤ 1024) (hh1 : 1 ≤ h) (hh2 : h ≤ 1024)
    (hlen : data.length = w * h) (hdata : ∀ b ∈ data, b < 256) :
    (bdgr_decode (bdgr_encode data w h).words w h).out = data :=
  (bdgr_roundtrip data w h (by omega) (by omega) hlen hdata).1

theorem C1_roundtrip_witness :
    ((1 : Nat) ≤ 2 ∧ (2 : Nat) ≤ 1024
      ∧ ([63, 200, 0, 255] : List Nat).length = 2 * 2
      ∧ (∀ b ∈ ([63, 200, 0, 255] : List Nat), b < 256))
    ∧ (bdgr_decode (bdgr_encode [63, 200, 0, 255] 2 2).words 2 2).out
        = [63, 200, 0, 255] :=
  ⟨⟨by decide, by decide, by decide, by decide⟩,
    C1_roundtrip [63, 200, 0, 255] 2 2 (by decide) (by decide) (by decide)
      (by decide) (by decide) (by decide)⟩

/-- C2: the spec claims `header(encode(F, w, h)) == (w, h)`, but `bdgr_header`
omits the initial `pull_in` that `bdgr_decode` performs, so its local `count`
goes negative, the guarded `pull_in` never fires, and the function returns
`(0, 0)` for every input — e.g. for the encoded 1×1 frame `[0]` it returns
`(0, 0)`, not `(1, 1)`. In debug builds `implore(count > 0)` fires. -/
theorem C2_header_bug :
    bdgr_header (bdgr_encode [0] 1 1).words = (0, 0)
    ∧ ((0, 0) : Nat × Nat) ≠ (1, 1)
    ∧ ∀ input : List Nat, bdgr_header input = (0, 0) :=
  ⟨by decide, by decide, bdgr_header_eq_zero⟩

/-- C3 counterexample: at `r = 4` the shipped table holds `1`, but the spec's
formula `max(0, ceil(log2(r+1)) − 1)` gives `ceil(log2 5) − 1 = 3 − 1 = 2`. -/
theorem C3_formula_counterexample :
    bdgr_k4rice.getD 4 0 = 1
    ∧ Nat.clog 2 (4 + 1) - 1 = 2
    ∧ (1 : Nat) ≠ 2 := by
  refine ⟨by decide, ?_, by decide⟩
  have h1 : bits_estimate_loop 5 5 0 = Nat.clog 2 5 :=
    bits_estimate_loop_eq 5 0 5 (Nat.zero_le _) (by have := clog2_le_self 5; omega)
  have h2 : bits_estimate_loop 5 5 0 = 3 := by decide
  have h3 : Nat.clog 2 5 = 3 := by omega
  show Nat.clog 2 5 - 1 = 2
  omega

/-- C3 (amended): the shipped 256-entry table equals the source's closed form
(`bits = 0; while ((1 << bits) < r) bits++; if (bits > 1) bits--;`), which in
turn equals `ceil(log2 r)` lowered by one when above one — not the spec's
`max(0, ceil(log2(r+1)) − 1)`, which overshoots at `r = 4, 8, 16, 32, 64, 128`.
`K4RICE[0] = K4RICE[1] = 0` does hold. -/
theorem C3_k4rice_closed_form :
    (∀ r < 256, bdgr_k4rice.getD r 0 = bits_estimate r)
    ∧ (∀ r : Nat, bits_estimate r
        = if 1 < Nat.clog 2 r then Nat.clog 2 r - 1 else Nat.clog 2 r)
    ∧ bdgr_k4rice.getD 0 0 = 0 ∧ bdgr_k4rice.getD 1 0 = 0 :=
  ⟨by decide, bits_estimate_eq, by decide, by decide⟩

theorem C3_k4rice_closed_form_witness :
    (4 : Nat) < 256 ∧ bdgr_k4rice.getD 4 0 = bits_estimate 4 :=
  ⟨by decide, C3_k4rice_closed_form.1 4 (by decide)⟩

/-- C4 counterexample: for the 1×1 frame `[0]`, `bdgr_encode` flushes one full
8-byte word and returns 8 bytes, exceeding `4 × w × h = 4`: the final flush
write (`*p++ = b64`) is not covered by the `swear(p <= e)` check in
`push_out`. -/
theorem C4_buffer_counterexample :
    (bdgr_encode [0] 1 1).bytes = 8
    ∧ ¬((bdgr_encode [0] 1 1).bytes ≤ 4 * 1 * 1) := by
  constructor <;> decide

/-- C4 (amended): the total bytes written by `bdgr_encode` is at most
`4 × w × h` rounded up to the next multiple of 8; the unrounded bound
`4 × w × h` holds whenever `w × h ∉ {1, 3}` and fails at `w × h ∈ {1, 3}`. -/
theorem C4_output_bound (data : List Nat) (w h : Nat)
    (hdata : ∀ b ∈ data, b < 256) (hn : 1 ≤ w * h) :
    (bdgr_encode data w h).bytes ≤ 8 * ((4 * (w * h) + 7) / 8)
    ∧ (w * h ≠ 1 → w * h ≠ 3 → (bdgr_encode data w h).bytes ≤ 4 * (w * h)) := by
  rw [bdgr_encode_bytes]
  have hlen : (encodedBits data w h).length ≤ 32 + (9 + 20 * (w * h - 1)) := by
    rw [encodedBits]
    simp only [List.length_append, bitsLE_length]
    have := symbolsBits_length_bound data hdata (w * h) 0 0 (by omega) hn
    omega
  constructor
  · omega
  · intro h1 h3
    omega

theorem C4_output_bound_witness :
    ((∀ b ∈ ([0, 0] : List Nat), b < 256) ∧ (1 : Nat) ≤ 2 * 1)
    ∧ (bdgr_encode [0, 0] 2 1).bytes ≤ 8 * ((4 * (2 * 1) + 7) / 8) :=
  ⟨⟨by decide, by decide⟩,
    (C4_output_bound [0, 0] 2 1 (by decide) (by decide)).1⟩

/-- C5: Rice coder duality and exact symbol length: encoding a symbol
`r ∈ [0, 255]` with parameter `k ∈ [0, 8]` (flushing the writer) and decoding
with the same `k` yields `r` back, and the number of bits emitted equals
`1 + min(q, CUTOFF) + (k if q < CUTOFF else 8)` with `q = r >> k` and
`CUTOFF = 11`. -/
theorem C5_rice_duality (r k : Nat) (hr : r < 256) (hk : k ≤ 8) :
    (decodeSymbol ⟨flushWords (encodeSymbol ⟨[], 0, 0⟩ k r), 0, 0⟩ k).1 = r
    ∧ bitLength (encodeSymbol ⟨[], 0, 0⟩ k r)
      = 1 + min (r >>> k) bdgr_cut_off
        + (if r >>> k < bdgr_cut_off then k else 8) := by
  have hW : WInv (encodeSymbol ⟨[], 0, 0⟩ k r) (riceBits k r) := by
    rw [encodeSymbol_eq]
    have h1 := pushBitList_WInv WInv_init (riceBits k r)
    rw [List.nil_append] at h1
    exact h1
  obtain ⟨hwb, _, hwlt⟩ := flushWords_spec hW
  have hrepr : reprR ⟨flushWords (encodeSymbol ⟨[], 0, 0⟩ k r), 0, 0⟩
      (riceBits k r
        ++ List.replicate ((64 - (encodeSymbol ⟨[], 0, 0⟩ k r).count) % 64) false) := by
    refine ⟨by norm_num, by norm_num, ?_, hwlt, ?_⟩
    · show (0 : Nat) < 2 ^ (0 : Int).toNat
      norm_num
    · show bitsLE (0 : Int).toNat 0 ++ wordsToBits _ = _
      rw [show ((0 : Int).toNat) = 0 from rfl, bitsLE_zero, List.nil_append]
      exact hwb
  constructor
  · exact (decodeSymbol_correct hrepr hr hk).1
  · rw [encodeSymbol_eq, bitLength_pushBitList, riceBits_length]
    show 0 + _ = _
    omega

theorem C5_rice_duality_witness :
    ((200 : Nat) < 256 ∧ (2 : Nat) ≤ 8)
    ∧ ((decodeSymbol ⟨flushWords (encodeSymbol ⟨[], 0, 0⟩ 2 200), 0, 0⟩ 2).1 = 200
      ∧ bitLength (encodeSymbol ⟨[], 0, 0⟩ 2 200)
        = 1 + min (200 >>> 2) bdgr_cut_off
          + (if 200 >>> 2 < bdgr_cut_off then 2 else 8)) :=
  ⟨⟨by decide, by decide⟩, C5_rice_duality 200 2 (by decide) (by decide)⟩

/-- C6: Residual-fold bijectivity: for every prediction `p` and pixel `v` in
`[0, 255]`, the folded residual maps to `r ∈ [0, 255]`, and the decoder's
inverse recovers `v` exactly. -/
theorem C6_fold_bijective (p v : Nat) (hp : p < 256) (hv : v < 256) :
    foldRice v p ≤ 255 ∧ decodePixelVal p (foldRice v p) = v := by
  obtain ⟨h1, h2⟩ := fold_roundtrip v p hv hp
  exact ⟨by omega, h2⟩

theorem C6_fold_bijective_witness :
    ((200 : Nat) < 256 ∧ (3 : Nat) < 256)
    ∧ (foldRice 3 200 ≤ 255 ∧ decodePixelVal 200 (foldRice 3 200) = 3) :=
  ⟨⟨by decide, by decide⟩, C6_fold_bijective 200 3 (by decide) (by decide)⟩

/-- C7: Bitstream alignment: the byte count returned by `bdgr_encode` is
always a multiple of 8 (the stream is emitted as whole 8-byte words, the
final partial word flushed whole). -/
theorem C7_alignment (data : List Nat) (w h : Nat) :
    8 ∣ (bdgr_encode data w h).bytes :=
  dvd_mul_right 8 _

/-- C8 counterexample: on the first line (`y = 0`) at `x = 1` with
`line = [5, 7]`, the neighbor `b` fed to the MED predictor is `5` (the value
of `a`, the left neighbor), not `0` as the claim states for `y == 0`. -/
theorem C8_border_counterexample :
    (neighbors 1 0 2 [] [5, 7]).b = 5 ∧ (5 : Nat) ≠ 0 := by
  constructor <;> decide

/-- C8 (amended): border rules of the MED `neighbors`: `a` is 0 at `x == 0`
and the reconstructed `line[x−1]` otherwise; on the first line (`y == 0`) the
values `b`, `c` are set to `a` and `d` to `b` (not to 0); for `y > 0`:
`b = prev[x]`, `c` is 0 at `x == 0` and `prev[x−1]` otherwise, and `d` is `b`
at `x == w−1` and `prev[x+1]` otherwise. -/
theorem C8_neighbors_border (x y w : Nat) (prev line : List Nat)
    (hx : x < w) :
    ((x = 0 → (neighbors x y w prev line).a = 0)
      ∧ (x ≠ 0 → (neighbors x y w prev line).a = line.getD (x - 1) 0))
    ∧ (y = 0 → (neighbors x y w prev line).b = (neighbors x y w prev line).a
        ∧ (neighbors x y w prev line).c = (neighbors x y w prev line).a
        ∧ (neighbors x y w prev line).d = (neighbors x y w prev line).b)
    ∧ (y ≠ 0 → (neighbors x y w prev line).b = prev.getD x 0
        ∧ (x = 0 → (neighbors x y w prev line).c = 0)
        ∧ (x ≠ 0 → (neighbors x y w prev line).c = prev.getD (x - 1) 0)
        ∧ (x = w - 1 → (neighbors x y w prev line).d = (neighbors x y w prev line).b)
        ∧ (x ≠ w - 1 → (neighbors x y w prev line).d = prev.getD (x + 1) 0)) := by
  refine ⟨⟨?_, ?_⟩, ?_, ?_⟩
  · intro h0
    simp [neighbors, h0]
  · intro h0
    simp [neighbors, h0]
  · intro h0
    refine ⟨?_, ?_, ?_⟩ <;> simp [neighbors, h0]
  · intro h0
    refine ⟨?_, ?_, ?_, ?_, ?_⟩
    · simp [neighbors, h0]
    · intro hx0
      simp [neighbors, h0, hx0]
    · intro hx0
      simp [neighbors, h0, hx0]
    · intro hxw
      simp [neighbors, h0, hxw]
    · intro hxw
      simp [neighbors, h0, hxw]

theorem C8_neighbors_border_witness :
    ((1 : Nat) < 2 ∧ (1 : Nat) ≠ 0)
    ∧ (neighbors 1 0 2 [] [5, 7]).a = [5, 7].getD 0 0 :=
  ⟨⟨by decide, by decide⟩,
    (C8_neighbors_border 1 0 2 [] [5, 7] (by decide)).1.2 (by decide)⟩

/-- C9: in the shipped codec the Rice parameter (the `bits` variable) always
lies in `[0, 7]` in both `bdgr_encode` and `bdgr_decode`: it starts at
`bdgr_start_with_bits = 7` and every entry of `bdgr_k4rice` is at most 7, so
the value 8 is never reached after any symbol. -/
theorem C9_bits_range :
    bdgr_start_with_bits = 7
    ∧ (∀ r : Nat, bdgr_k4rice.getD r 0 ≤ 7)
    ∧ (∀ (frame : List Nat) (i n : Nat) (st : BWState) (bits pred : Nat),
        bits ≤ 7 → (encodeLoop frame i n st bits pred).bits ≤ 7)
    ∧ (∀ (n : Nat) (s : BRState) (bits pred : Nat) (acc : List Nat),
        bits ≤ 7 → (decodeLoop n s bits pred acc).bits ≤ 7) :=
  ⟨rfl, bdgr_k4rice_le,
    fun frame i n st bits pred h => encodeLoop_bits_le frame i n st bits pred h,
    fun n s bits pred acc h => decodeLoop_bits_le n s bits pred acc h⟩

theorem C9_bits_range_witness :
    (7 : Nat) ≤ 7 ∧ (encodeLoop [5] 0 1 ⟨[], 0, 0⟩ 7 0).bits ≤ 7 :=
  ⟨by decide, C9_bits_range.2.2.1 [5] 0 1 ⟨[], 0, 0⟩ 7 0 (by decide)⟩

/-- C10: `bdgr_encode` never modifies the input frame: the pixel loop only
reads the frame memory (`byte px = *s++`), so the frame after the call equals
the input, for every buffer and dimensions — in contrast to the exploratory
lossy encoder, which stores reconstructed values back into its input line. -/
theorem C10_input_unmodified (data : List Nat) (w h : Nat) :
    (bdgr_encode data w h).frame = data :=
  encodeLoop_frame data 0 (w * h) _ _ _

end Bdgr
